import Mathlib

/-!
Verification of the inspequte analysis pipeline (Rust) against its
natural-language specification.  The Rust sources are shallowly embedded:
`Vec<V>` becomes `List V` (index 0 first, `push` appends at the end),
`BTreeMap` becomes a key-sorted association list, `BTreeSet` a sorted
duplicate-free list, and fallible operations return `Option`/`Except`.
A `Vec` index panic is modelled as `Option.none`.
-/

namespace Inspequte

/-! ## Stack machine (src/dataflow/stack_machine.rs) -/

/-- Configuration for stack/local simulation budgets
(`StackMachineConfig`, stack_machine.rs). -/
structure StackMachineConfig where
  max_stack_depth : Option Nat
  max_locals : Option Nat
  max_symbolic_identities : Option Nat
  deriving Repr, DecidableEq

/-- `StackMachineConfig::default()`: all caps absent. -/
def StackMachineConfig.default : StackMachineConfig :=
  { max_stack_depth := none, max_locals := none, max_symbolic_identities := none }

/-- Generic abstract machine for JVM-like stack and local state
(`StackMachine<V>`, stack_machine.rs).  The stack list is in `Vec` order:
index 0 is the bottom, the last element is the top.  Locals mirror the
`BTreeMap<usize, V>`: an association list strictly sorted by key. -/
structure StackMachine (V : Type) where
  stack : List V
  locals : List (Nat × V)
  default_value : V
  config : StackMachineConfig
  deriving Repr, DecidableEq

namespace StackMachine

variable {V : Type}

/-- `StackMachine::with_config`. -/
def with_config (default_value : V) (config : StackMachineConfig) : StackMachine V :=
  { stack := [], locals := [], default_value := default_value, config := config }

/-- `StackMachine::new` (default configuration). -/
def new (default_value : V) : StackMachine V :=
  with_config default_value StackMachineConfig.default

/-- `StackMachine::stack_len`. -/
def stack_len (m : StackMachine V) : Nat := m.stack.length

/-- `StackMachine::peek`: `Vec::last`, the top of the stack. -/
def peek (m : StackMachine V) : Option V := m.stack.getLast?

/-- `StackMachine::push`.  When `max_stack_depth` is configured and the
stack is at (or beyond) the cap, `self.stack.remove(0)` drops the bottom
element first; `Vec::remove(0)` on an empty vector panics, modelled as
`none`. -/
def push (m : StackMachine V) (v : V) : Option (StackMachine V) :=
  match m.config.max_stack_depth with
  | some max_depth =>
      if max_depth ≤ m.stack.length then
        match m.stack with
        | [] => none
        | _ :: rest => some { m with stack := rest ++ [v] }
      else
        some { m with stack := m.stack ++ [v] }
  | none => some { m with stack := m.stack ++ [v] }

/-- `StackMachine::pop`: pops the top value, or returns `default_value`
(leaving the stack empty) on underflow. -/
def pop (m : StackMachine V) : V × StackMachine V :=
  match m.stack.getLast? with
  | some v => (v, { m with stack := m.stack.dropLast })
  | none => (m.default_value, m)

/-- `StackMachine::pop_n`: pops `count` values and discards them. -/
def pop_n (m : StackMachine V) : Nat → StackMachine V
  | 0 => m
  | n + 1 => pop_n (m.pop).2 n

/-- `is_local_out_of_budget` (stack_machine.rs). -/
def is_local_out_of_budget (m : StackMachine V) (index : Nat) : Bool :=
  match m.config.max_locals with
  | some max_locals => decide (max_locals ≤ index)
  | none => false

/-- `StackMachine::load_local`. -/
def load_local (m : StackMachine V) (index : Nat) : V :=
  if m.is_local_out_of_budget index then m.default_value
  else
    match m.locals.lookup index with
    | some v => v
    | none => m.default_value

/-- Key-sorted insertion backing `BTreeMap::insert` for the locals map. -/
def localsInsert (l : List (Nat × V)) (index : Nat) (v : V) : List (Nat × V) :=
  match l with
  | [] => [(index, v)]
  | (k, w) :: rest =>
      if index < k then (index, v) :: (k, w) :: rest
      else if index = k then (index, v) :: rest
      else (k, w) :: localsInsert rest index v

/-- `StackMachine::store_local`. -/
def store_local (m : StackMachine V) (index : Nat) (v : V) : StackMachine V :=
  if m.is_local_out_of_budget index then m
  else { m with locals := localsInsert m.locals index v }

/-- A sequence of `push` operations; `none` as soon as one push panics. -/
def pushAll (m : StackMachine V) : List V → Option (StackMachine V)
  | [] => some m
  | v :: rest =>
      match m.push v with
      | some m' => pushAll m' rest
      | none => none

/-- A single capped push from a stack strictly below the cap appends on top. -/
theorem push_below_cap {D : Nat} (m : StackMachine V) (v : V)
    (hcfg : m.config.max_stack_depth = some D) (hlt : m.stack.length < D) :
    m.push v = some { m with stack := m.stack ++ [v] } := by
  unfold push
  rw [hcfg]
  simp [Nat.not_le.mpr hlt]

/-- A single capped push from a nonempty stack at (or beyond) the cap drops
the bottom element and appends on top. -/
theorem push_at_cap {D : Nat} (m : StackMachine V) (v : V)
    (hcfg : m.config.max_stack_depth = some D) (hge : D ≤ m.stack.length)
    (hne : m.stack ≠ []) :
    m.push v = some { m with stack := m.stack.tail ++ [v] } := by
  cases hs : m.stack with
  | nil => exact absurd hs hne
  | cons a rest =>
      have hge' : D ≤ rest.length + 1 := by
        rw [hs] at hge
        simpa using hge
      simp [push, hcfg, hs, hge']

/-- One push from within the cap succeeds, stays within the cap, leaves the
pushed value on top and touches nothing but the stack. -/
theorem push_ok {D : Nat} (hD : 1 ≤ D) (m : StackMachine V) (v : V)
    (hcfg : m.config.max_stack_depth = some D) (hlen : m.stack.length ≤ D) :
    ∃ m', m.push v = some m' ∧ m'.stack.length ≤ D ∧ m'.peek = some v ∧
      m'.locals = m.locals ∧ m'.config = m.config ∧
      m'.default_value = m.default_value := by
  rcases Nat.lt_or_ge m.stack.length D with hlt | hge
  · refine ⟨_, push_below_cap m v hcfg hlt, ?_, ?_, rfl, rfl, rfl⟩
    · simp only [List.length_append, List.length_cons, List.length_nil]
      omega
    · simp [peek, List.getLast?_concat]
  · have hne : m.stack ≠ [] := by
      intro h
      rw [h] at hge
      simp at hge
      omega
    refine ⟨_, push_at_cap m v hcfg hge hne, ?_, ?_, rfl, rfl, rfl⟩
    · simp only [List.length_append, List.length_tail, List.length_cons,
        List.length_nil]
      omega
    · simp [peek, List.getLast?_concat]

end StackMachine

/-- The last element of a cons list with a nonempty tail is that of the tail. -/
theorem getLast?_cons_of_ne_nil {α : Type} (a : α) {l : List α} (h : l ≠ []) :
    (a :: l).getLast? = l.getLast? := by
  cases l with
  | nil => exact absurd rfl h
  | cons b t => simp [List.getLast?_cons_cons]

/-! ### C4: the `max_stack_depth` cap -/

/-- Convenient concrete configuration with only a stack-depth cap. -/
def depthCfg (d : Nat) : StackMachineConfig :=
  { max_stack_depth := some d, max_locals := none, max_symbolic_identities := none }

/-- C4 (counterexample): with `max_stack_depth = 0`, the very first `push`
panics (`Vec::remove(0)` on an empty vector), so no resulting stack with
length at most `0` and the pushed value on top exists. -/
theorem pushCapZeroPanics :
    StackMachine.pushAll (StackMachine.with_config (0 : Nat) (depthCfg 0)) [7] = none ∧
    ¬ ∃ m' : StackMachine Nat,
        StackMachine.pushAll (StackMachine.with_config (0 : Nat) (depthCfg 0)) [7] = some m' ∧
        m'.stack.length ≤ 0 ∧ m'.peek = some 7 := by
  constructor
  · rfl
  · rintro ⟨m', hm', -⟩
    simp [StackMachine.pushAll, StackMachine.push, StackMachine.with_config, depthCfg] at hm'

/-- C4 (amended): for every `StackMachine` configured with
`max_stack_depth = D` where `D ≥ 1`, after any sequence of pushes from a
state within the cap every push completes, the stack length stays at most
`D`, the locals are untouched, and the top element is the value pushed
last; a push occurring while the stack is at the cap drops the bottom
element before pushing. -/
theorem stackDepthCapHolds {V : Type} (D : Nat) (hD : 1 ≤ D)
    (m : StackMachine V) (hcfg : m.config.max_stack_depth = some D)
    (hlen : m.stack.length ≤ D) :
    (∀ vs : List V, ∃ m', StackMachine.pushAll m vs = some m' ∧
        m'.stack.length ≤ D ∧ m'.locals = m.locals ∧
        (vs ≠ [] → m'.peek = vs.getLast?)) ∧
    (∀ v : V, m.stack.length = D →
        m.push v = some { m with stack := m.stack.tail ++ [v] }) := by
  constructor
  · intro vs
    induction vs generalizing m with
    | nil => exact ⟨m, rfl, hlen, rfl, by simp⟩
    | cons v rest ih =>
        obtain ⟨m1, hpush, hle1, hpeek1, hloc1, hcfg1, -⟩ :=
          StackMachine.push_ok hD m v hcfg hlen
        obtain ⟨m', hall, hle, hloc, hpeek⟩ :=
          ih m1 (by rw [hcfg1, hcfg]) hle1
        refine ⟨m', ?_, hle, by rw [hloc, hloc1], ?_⟩
        · simp [StackMachine.pushAll, hpush, hall]
        · intro _
          rcases eq_or_ne rest [] with hrest | hrest
          · subst hrest
            have hm : m1 = m' := by
              simpa [StackMachine.pushAll] using hall
            rw [← hm, hpeek1]
            rfl
          · rw [getLast?_cons_of_ne_nil v hrest]
            exact hpeek hrest
  · intro v heq
    exact StackMachine.push_at_cap m v hcfg (le_of_eq heq.symm)
      (by intro h; rw [h] at heq; simp at heq; omega)

/-- C4 (witness): the amended cap law evaluated on a machine capped at
depth 2 receiving three pushes. -/
theorem stackDepthCapHoldsWitness :
    (∀ vs : List Nat, ∃ m', StackMachine.pushAll
        (StackMachine.with_config (0 : Nat) (depthCfg 2)) vs = some m' ∧
        m'.stack.length ≤ 2 ∧
        m'.locals = (StackMachine.with_config (0 : Nat) (depthCfg 2)).locals ∧
        (vs ≠ [] → m'.peek = vs.getLast?)) ∧
    (∀ v : Nat, (StackMachine.with_config (0 : Nat) (depthCfg 2)).stack.length = 2 →
        (StackMachine.with_config (0 : Nat) (depthCfg 2)).push v =
          some { StackMachine.with_config (0 : Nat) (depthCfg 2) with
                  stack := (StackMachine.with_config (0 : Nat) (depthCfg 2)).stack.tail ++ [v] }) :=
  stackDepthCapHolds 2 (by decide)
    (StackMachine.with_config (0 : Nat) (depthCfg 2)) rfl (by decide)

/-! ## Opcode catalog

Modelled from the spec: the opcode-catalog module (`src/opcodes.rs`, declared
by `main.rs` but absent from the sources) names the standard JVM opcodes;
the numeric values below are the standard JVM opcode numbers the names
denote. -/

def ACONST_NULL : Nat := 0x01
def ICONST_M1 : Nat := 0x02
def ICONST_0 : Nat := 0x03
def ICONST_1 : Nat := 0x04
def ICONST_2 : Nat := 0x05
def ICONST_3 : Nat := 0x06
def ICONST_4 : Nat := 0x07
def ICONST_5 : Nat := 0x08
def BIPUSH : Nat := 0x10
def SIPUSH : Nat := 0x11
def LDC : Nat := 0x12
def LDC_W : Nat := 0x13
def LDC2_W : Nat := 0x14
def ILOAD : Nat := 0x15
def ALOAD : Nat := 0x19
def ILOAD_0 : Nat := 0x1a
def ILOAD_1 : Nat := 0x1b
def ILOAD_2 : Nat := 0x1c
def ILOAD_3 : Nat := 0x1d
def ALOAD_0 : Nat := 0x2a
def ALOAD_1 : Nat := 0x2b
def ALOAD_2 : Nat := 0x2c
def ALOAD_3 : Nat := 0x2d
def ASTORE : Nat := 0x3a
def ASTORE_0 : Nat := 0x4b
def ASTORE_1 : Nat := 0x4c
def ASTORE_2 : Nat := 0x4d
def ASTORE_3 : Nat := 0x4e
def POP : Nat := 0x57
def POP2 : Nat := 0x58
def DUP : Nat := 0x59
def IFEQ : Nat := 0x99
def IFNE : Nat := 0x9a
def IFLT : Nat := 0x9b
def IFGE : Nat := 0x9c
def IFGT : Nat := 0x9d
def IFLE : Nat := 0x9e
def IF_ICMPEQ : Nat := 0x9f
def IF_ICMPNE : Nat := 0xa0
def IF_ICMPLT : Nat := 0xa1
def IF_ICMPGE : Nat := 0xa2
def IF_ICMPGT : Nat := 0xa3
def IF_ICMPLE : Nat := 0xa4
def IF_ACMPEQ : Nat := 0xa5
def IF_ACMPNE : Nat := 0xa6
def TABLESWITCH : Nat := 0xaa
def LOOKUPSWITCH : Nat := 0xab
def NEW : Nat := 0xbb
def IFNULL : Nat := 0xc6
def IFNONNULL : Nat := 0xc7

/-! ## Default opcode semantics (src/dataflow/opcode_semantics.rs) -/

/-- The slice of `Method` (src/ir.rs) consumed by the default opcode
semantics: the raw bytecode bytes. -/
structure Method where
  bytecode : List Nat
  deriving Repr, DecidableEq

/-- `ValueDomain<V>`: rule-supplied value constructors. -/
structure ValueDomain (V : Type) where
  unknown_value : V
  scalar_value : V

/-- `ApplyOutcome` (opcode_semantics.rs). -/
inductive ApplyOutcome where
  | applied
  | notHandled
  deriving Repr, DecidableEq

/-- `LocalSlot` (opcode_semantics.rs). -/
inductive LocalSlot where
  | operandU8
  | fixed (n : Nat)
  deriving Repr, DecidableEq

/-- `Effect` (opcode_semantics.rs). -/
inductive Effect where
  | pushUnknown
  | pushScalar
  | loadLocal (slot : LocalSlot)
  | storeLocal (slot : LocalSlot)
  | popEff (count : Nat)
  | dup
  deriving Repr, DecidableEq

/-- `decode` (opcode_semantics.rs): the table of shared opcode effects. -/
def decode (opcode : Nat) : Option Effect :=
  if opcode = ACONST_NULL then some Effect.pushUnknown
  else if opcode ∈ [ICONST_M1, ICONST_0, ICONST_1, ICONST_2, ICONST_3,
      ICONST_4, ICONST_5, BIPUSH, SIPUSH, ILOAD, ILOAD_0, ILOAD_1, ILOAD_2,
      ILOAD_3, NEW, LDC, LDC_W, LDC2_W] then some Effect.pushScalar
  else if opcode = ALOAD then some (Effect.loadLocal LocalSlot.operandU8)
  else if opcode = ALOAD_0 then some (Effect.loadLocal (LocalSlot.fixed 0))
  else if opcode = ALOAD_1 then some (Effect.loadLocal (LocalSlot.fixed 1))
  else if opcode = ALOAD_2 then some (Effect.loadLocal (LocalSlot.fixed 2))
  else if opcode = ALOAD_3 then some (Effect.loadLocal (LocalSlot.fixed 3))
  else if opcode = ASTORE then some (Effect.storeLocal LocalSlot.operandU8)
  else if opcode = ASTORE_0 then some (Effect.storeLocal (LocalSlot.fixed 0))
  else if opcode = ASTORE_1 then some (Effect.storeLocal (LocalSlot.fixed 1))
  else if opcode = ASTORE_2 then some (Effect.storeLocal (LocalSlot.fixed 2))
  else if opcode = ASTORE_3 then some (Effect.storeLocal (LocalSlot.fixed 3))
  else if opcode = POP then some (Effect.popEff 1)
  else if opcode = POP2 then some (Effect.popEff 2)
  else if opcode = DUP then some Effect.dup
  else if opcode ∈ [IFEQ, IFNE, IFLT, IFGE, IFGT, IFLE, IFNULL, IFNONNULL,
      TABLESWITCH, LOOKUPSWITCH] then some (Effect.popEff 1)
  else if opcode ∈ [IF_ICMPEQ, IF_ICMPNE, IF_ICMPLT, IF_ICMPGE, IF_ICMPGT,
      IF_ICMPLE] then some (Effect.popEff 2)
  else none

/-- `local_index` (opcode_semantics.rs): the operand byte after the opcode,
or the fixed slot. -/
def local_index (method : Method) (offset : Nat) : LocalSlot → Nat
  | LocalSlot.operandU8 => (method.bytecode.get? (offset + 1)).getD 0
  | LocalSlot.fixed n => n

/-- `apply_default_semantics` (opcode_semantics.rs).  `none` models a push
panic (only reachable under a zero stack cap). -/
def apply_default_semantics {V : Type} (m : StackMachine V) (method : Method)
    (offset : Nat) (opcode : Nat) (domain : ValueDomain V) :
    Option (ApplyOutcome × StackMachine V) :=
  match decode opcode with
  | none => some (ApplyOutcome.notHandled, m)
  | some eff =>
      match eff with
      | Effect.pushUnknown =>
          (m.push domain.unknown_value).map (fun m' => (ApplyOutcome.applied, m'))
      | Effect.pushScalar =>
          (m.push domain.scalar_value).map (fun m' => (ApplyOutcome.applied, m'))
      | Effect.loadLocal slot =>
          (m.push (m.load_local (local_index method offset slot))).map
            (fun m' => (ApplyOutcome.applied, m'))
      | Effect.storeLocal slot =>
          let popped := m.pop
          some (ApplyOutcome.applied,
            popped.2.store_local (local_index method offset slot) popped.1)
      | Effect.popEff count => some (ApplyOutcome.applied, m.pop_n count)
      | Effect.dup =>
          match m.peek with
          | some v => (m.push v).map (fun m' => (ApplyOutcome.applied, m'))
          | none => some (ApplyOutcome.applied, m)

/-! ## The exception-cause value domain
(src/rules/exception_cause_not_preserved/mod.rs) -/

/-- `Value` from the exception-cause rule: the concrete value domain used to
exercise the generic stack machine. -/
inductive Value where
  | other
  | caught
  | new (id : Nat)
  deriving Repr, DecidableEq

/-- `ExceptionValueDomain`: both constructors yield `Value::Other`. -/
def exceptionDomain : ValueDomain Value :=
  { unknown_value := Value.other, scalar_value := Value.other }

/-! ### C3: conditional branches in the default semantics -/

/-- `pop_n` only truncates the top `count` stack slots. -/
theorem StackMachine.pop_n_take {V : Type} (m : StackMachine V) (k : Nat) :
    m.pop_n k = { m with stack := m.stack.take (m.stack.length - k) } := by
  induction k generalizing m with
  | zero => simp [StackMachine.pop_n, List.take_length]
  | succ k ih =>
      show StackMachine.pop_n (m.pop).2 k = _
      rw [ih]
      unfold StackMachine.pop
      cases hs : m.stack.getLast? with
      | none =>
          have : m.stack = [] := by
            cases h : m.stack with
            | nil => rfl
            | cons a t => rw [h] at hs; simp [List.getLast?_concat] at hs
          simp [this]
      | some v =>
          have hne : m.stack ≠ [] := by
            intro h
            rw [h] at hs
            simp at hs
          simp only []
          congr 1
          rw [List.dropLast_eq_take, List.take_take, List.length_take]
          congr 1
          omega

/-- A decoded `Pop(k)` effect applies exactly `pop_n k`. -/
theorem apply_popEff {V : Type} (m : StackMachine V) (method : Method)
    (offset : Nat) (opcode : Nat) (domain : ValueDomain V) (k : Nat)
    (h : decode opcode = some (Effect.popEff k)) :
    apply_default_semantics m method offset opcode domain =
      some (ApplyOutcome.applied, m.pop_n k) := by
  simp [apply_default_semantics, h]

/-- C3 (counterexample): `if_acmpeq` (0xa5) and `if_acmpne` (0xa6) are JVM
conditional-branch opcodes, yet `decode` has no entry for them and
`apply_default_semantics` answers `NotHandled` (the exception-cause rule
handles them in its own transfer function instead). -/
theorem acmpBranchesNotHandled :
    decode IF_ACMPEQ = none ∧ decode IF_ACMPNE = none ∧
    apply_default_semantics (StackMachine.new Value.other) ⟨[]⟩ 0 IF_ACMPEQ
        exceptionDomain =
      some (ApplyOutcome.notHandled, StackMachine.new Value.other) := by
  refine ⟨by decide, by decide, ?_⟩
  have h : decode IF_ACMPEQ = none := by decide
  simp [apply_default_semantics, h]

/-- C3 (amended): for every conditional-branch opcode present in the decode
table — `ifeq`..`ifle`, `ifnull`, `ifnonnull` (single-operand) and
`if_icmpeq`..`if_icmple` (two-operand comparisons) — `apply_default_semantics`
returns `Applied` and its only effect is the stack effect: one value popped
for single-operand branches, two for two-operand branches.  The reference
comparison branches `if_acmpeq`/`if_acmpne` are not handled by the table. -/
theorem condBranchStackEffect {V : Type} (m : StackMachine V) (method : Method)
    (offset : Nat) (domain : ValueDomain V) (opcode : Nat) :
    (opcode ∈ [IFEQ, IFNE, IFLT, IFGE, IFGT, IFLE, IFNULL, IFNONNULL] →
      apply_default_semantics m method offset opcode domain =
        some (ApplyOutcome.applied,
          { m with stack := m.stack.take (m.stack.length - 1) })) ∧
    (opcode ∈ [IF_ICMPEQ, IF_ICMPNE, IF_ICMPLT, IF_ICMPGE, IF_ICMPGT,
        IF_ICMPLE] →
      apply_default_semantics m method offset opcode domain =
        some (ApplyOutcome.applied,
          { m with stack := m.stack.take (m.stack.length - 2) })) := by
  constructor
  · intro h
    fin_cases h <;>
      rw [apply_popEff _ _ _ _ _ 1 (by decide), StackMachine.pop_n_take]
  · intro h
    fin_cases h <;>
      rw [apply_popEff _ _ _ _ _ 2 (by decide), StackMachine.pop_n_take]

/-- C3 (witness): the amended branch semantics evaluated at `ifeq` and
`if_icmpeq` on a concrete two-value stack. -/
theorem condBranchStackEffectWitness :
    apply_default_semantics
        { stack := [Value.other, Value.caught], locals := [],
          default_value := Value.other, config := StackMachineConfig.default }
        ⟨[]⟩ 0 IFEQ exceptionDomain =
      some (ApplyOutcome.applied,
        { stack := [Value.other], locals := [], default_value := Value.other,
          config := StackMachineConfig.default }) ∧
    apply_default_semantics
        { stack := [Value.other, Value.caught], locals := [],
          default_value := Value.other, config := StackMachineConfig.default }
        ⟨[]⟩ 0 IF_ICMPEQ exceptionDomain =
      some (ApplyOutcome.applied,
        { stack := [], locals := [], default_value := Value.other,
          config := StackMachineConfig.default }) := by
  have h := condBranchStackEffect
    { stack := [Value.other, Value.caught], locals := [],
      default_value := Value.other, config := StackMachineConfig.default }
    ⟨[]⟩ 0 exceptionDomain
  exact ⟨by simpa using h IFEQ |>.1 (by decide),
    by simpa using h IF_ICMPEQ |>.2 (by decide)⟩

/-! ## Canonicalization of symbolic ids (stack_machine.rs) -/

/-- Index of the first occurrence of `a` in a list. -/
def idIndex : List Nat → Nat → Option Nat
  | [], _ => none
  | b :: t, a => if a = b then some 0 else (idIndex t a).map (· + 1)

/-- One step of first-occurrence deduplication. -/
def occStep (s : List Nat) (a : Nat) : List Nat :=
  if a ∈ s then s else s ++ [a]

/-- The distinct elements of a list in first-encounter order. -/
def firstOcc (l : List Nat) : List Nat := l.foldl occStep []

/-- Association-list lookup; models `BTreeMap::get` on the canonicalization
mapping. -/
def alookup {β : Type} : List (Nat × β) → Nat → Option β
  | [], _ => none
  | (k, v) :: t, a => if a = k then some v else alookup t a

/-- One step of `canonicalize_symbolic_ids_u32`'s mapping construction:
`mapping.entry(id).or_insert_with(next_id++)`, where `next_id` always equals
the number of entries already inserted. -/
def mappingStep (acc : List (Nat × Nat)) (id : Nat) : List (Nat × Nat) :=
  match alookup acc id with
  | some _ => acc
  | none => acc ++ [(id, acc.length)]

/-- The id remapping built by walking the encountered ids in order. -/
def buildMapping (ids : List Nat) : List (Nat × Nat) := ids.foldl mappingStep []

theorem alookup_append_some {β : Type} {l1 : List (Nat × β)} (l2 : List (Nat × β))
    {a : Nat} {v : β} (h : alookup l1 a = some v) : alookup (l1 ++ l2) a = some v := by
  induction l1 with
  | nil => simp [alookup] at h
  | cons kv t ih =>
      obtain ⟨k, w⟩ := kv
      rw [List.cons_append]
      by_cases hk : a = k
      · simp only [alookup, if_pos hk] at h ⊢
        exact h
      · simp only [alookup, if_neg hk] at h ⊢
        exact ih h

theorem alookup_append_none {β : Type} {l1 : List (Nat × β)} (l2 : List (Nat × β))
    {a : Nat} (h : alookup l1 a = none) : alookup (l1 ++ l2) a = alookup l2 a := by
  induction l1 with
  | nil => simp
  | cons kv t ih =>
      obtain ⟨k, w⟩ := kv
      rw [List.cons_append]
      by_cases hk : a = k
      · simp [alookup, if_pos hk] at h
      · simp only [alookup, if_neg hk] at h ⊢
        exact ih h

theorem idIndex_append (s t : List Nat) (a : Nat) :
    idIndex (s ++ t) a =
      match idIndex s a with
      | some i => some i
      | none => (idIndex t a).map (s.length + ·) := by
  induction s with
  | nil => simp [idIndex]
  | cons b u ih =>
      by_cases hb : a = b
      · simp [idIndex, hb]
      · rw [List.cons_append]
        simp only [idIndex, if_neg hb, ih]
        cases idIndex u a with
        | some i => simp
        | none =>
            cases idIndex t a with
            | some i => simp [Nat.add_comm, Nat.add_assoc, Nat.add_left_comm]
            | none => simp

theorem idIndex_isSome_iff {s : List Nat} {a : Nat} :
    (idIndex s a).isSome ↔ a ∈ s := by
  induction s with
  | nil => simp [idIndex]
  | cons b t ih =>
      by_cases hb : a = b
      · simp [idIndex, hb]
      · simp only [idIndex, if_neg hb, List.mem_cons]
        cases h : idIndex t a with
        | some i => simp [h] at ih; simp [ih, hb]
        | none => simp [h] at ih; simp [hb, ih]

theorem idIndex_none_iff {s : List Nat} {a : Nat} :
    idIndex s a = none ↔ a ∉ s := by
  rw [← idIndex_isSome_iff, Option.not_isSome_iff_eq_none]

theorem idIndex_get {s : List Nat} {a i : Nat} (h : idIndex s a = some i) :
    s.get? i = some a := by
  induction s generalizing i with
  | nil => simp [idIndex] at h
  | cons b t ih =>
      by_cases hb : a = b
      · simp [idIndex, hb] at h
        simp [← h, hb]
      · simp only [idIndex, if_neg hb] at h
        cases hj : idIndex t a with
        | none => simp [hj] at h
        | some j =>
            rw [hj] at h
            simp at h
            rw [← h]
            simpa using ih hj

theorem idIndex_map_of_inj {s : List Nat} {f : Nat → Nat} {a : Nat}
    (hinj : ∀ x ∈ s, f x = f a → x = a) :
    idIndex (s.map f) (f a) = idIndex s a := by
  induction s with
  | nil => simp [idIndex]
  | cons b t ih =>
      by_cases hb : a = b
      · simp [idIndex, hb]
      · have hfb : f a ≠ f b := by
          intro h
          exact hb ((hinj b (by simp) h.symm).symm)
        simp only [List.map_cons, idIndex, if_neg hb, if_neg hfb]
        rw [ih (fun x hx => hinj x (by simp [hx]))]

theorem foldl_occStep_mem (l : List Nat) (s : List Nat) (a : Nat) :
    a ∈ l.foldl occStep s ↔ a ∈ s ∨ a ∈ l := by
  induction l generalizing s with
  | nil => simp
  | cons b t ih =>
      rw [List.foldl_cons, ih]
      by_cases hb : b ∈ s
      · rw [show occStep s b = s from by simp [occStep, hb]]
        simp only [List.mem_cons]
        constructor
        · rintro (h | h)
          · exact Or.inl h
          · exact Or.inr (Or.inr h)
        · rintro (h | rfl | h)
          · exact Or.inl h
          · exact Or.inl hb
          · exact Or.inr h
      · rw [show occStep s b = s ++ [b] from by simp [occStep, hb]]
        simp only [List.mem_append, List.mem_singleton, List.mem_cons]
        tauto

theorem foldl_occStep_prefix (l : List Nat) (s : List Nat) :
    ∃ t, l.foldl occStep s = s ++ t := by
  induction l generalizing s with
  | nil => exact ⟨[], by simp⟩
  | cons b u ih =>
      rw [List.foldl_cons]
      by_cases hb : b ∈ s
      · rw [show occStep s b = s from by simp [occStep, hb]]
        exact ih s
      · rw [show occStep s b = s ++ [b] from by simp [occStep, hb]]
        obtain ⟨t, ht⟩ := ih (s ++ [b])
        exact ⟨[b] ++ t, by rw [ht, List.append_assoc]⟩

theorem mem_firstOcc {l : List Nat} {a : Nat} : a ∈ firstOcc l ↔ a ∈ l := by
  simp [firstOcc, foldl_occStep_mem]

/-- For elements of the prefix, the first-occurrence index ignores whatever
is walked afterwards. -/
theorem idIndex_firstOcc_append {x : List Nat} (y : List Nat) {a : Nat}
    (ha : a ∈ x) : idIndex (firstOcc (x ++ y)) a = idIndex (firstOcc x) a := by
  have hx : firstOcc (x ++ y) = y.foldl occStep (firstOcc x) := by
    simp [firstOcc, List.foldl_append]
  obtain ⟨t, ht⟩ := foldl_occStep_prefix y (firstOcc x)
  rw [hx, ht, idIndex_append]
  have : (idIndex (firstOcc x) a).isSome := idIndex_isSome_iff.mpr (mem_firstOcc.mpr ha)
  cases h : idIndex (firstOcc x) a with
  | some i => simp
  | none => rw [h] at this; simp at this

theorem foldl_occStep_map {A : List Nat} {f : Nat → Nat}
    (hinj : ∀ x ∈ A, ∀ y ∈ A, f x = f y → x = y) :
    ∀ (l s : List Nat), (∀ x ∈ s, x ∈ A) → (∀ x ∈ l, x ∈ A) →
      (l.map f).foldl occStep (s.map f) = (l.foldl occStep s).map f := by
  intro l
  induction l with
  | nil => intro s _ _; simp
  | cons b u ih =>
      intro s hs hl
      have hbA : b ∈ A := hl b (by simp)
      have hmem : f b ∈ s.map f ↔ b ∈ s := by
        constructor
        · intro h
          obtain ⟨x, hx, hfx⟩ := List.mem_map.mp h
          exact (hinj x (hs x hx) b hbA hfx) ▸ hx
        · intro h
          exact List.mem_map.mpr ⟨b, h, rfl⟩
      rw [List.map_cons, List.foldl_cons, List.foldl_cons]
      by_cases hb : b ∈ s
      · rw [show occStep (s.map f) (f b) = s.map f from by
            simp [occStep, hmem.mpr hb],
          show occStep s b = s from by simp [occStep, hb]]
        exact ih s hs (fun x hx => hl x (by simp [hx]))
      · rw [show occStep (s.map f) (f b) = (s ++ [b]).map f from by
            simp [occStep, hmem, hb],
          show occStep s b = s ++ [b] from by simp [occStep, hb]]
        refine ih (s ++ [b]) ?_ (fun x hx => hl x (by simp [hx]))
        intro x hx
        rcases List.mem_append.mp hx with h | h
        · exact hs x h
        · simp at h
          exact h ▸ hbA

theorem firstOcc_map {l : List Nat} {f : Nat → Nat}
    (hinj : ∀ x ∈ l, ∀ y ∈ l, f x = f y → x = y) :
    firstOcc (l.map f) = (firstOcc l).map f := by
  simpa [firstOcc] using
    foldl_occStep_map hinj l [] (by simp) (fun x hx => hx)

/-- The mapping graph built by `canonicalize_symbolic_ids_u32`:
an id's assigned compact id is its first-encounter index. -/
theorem buildMapping_lookup (l : List Nat) (a : Nat) :
    alookup (buildMapping l) a = idIndex (firstOcc l) a := by
  suffices h : ∀ (l : List Nat) (acc : List (Nat × Nat)) (s : List Nat),
      (∀ b, alookup acc b = idIndex s b) → acc.length = s.length →
      (∀ b, alookup (l.foldl mappingStep acc) b = idIndex (l.foldl occStep s) b) ∧
      (l.foldl mappingStep acc).length = (l.foldl occStep s).length by
    exact (h l [] [] (fun b => by simp [idIndex, alookup]) rfl).1 a
  intro l
  induction l with
  | nil => intro acc s hinv hlen; exact ⟨hinv, hlen⟩
  | cons b u ih =>
      intro acc s hinv hlen
      rw [List.foldl_cons, List.foldl_cons]
      by_cases hb : b ∈ s
      · have hsome : (alookup acc b).isSome := by
          rw [hinv b]
          exact idIndex_isSome_iff.mpr hb
        have hstep : mappingStep acc b = acc := by
          unfold mappingStep
          cases h : alookup acc b with
          | some v => simp
          | none => rw [h] at hsome; simp at hsome
        have hocc : occStep s b = s := by simp [occStep, hb]
        rw [hstep, hocc]
        exact ih acc s hinv hlen
      · have hnone : alookup acc b = none := by
          rw [hinv b, idIndex_none_iff]
          exact hb
        have hstep : mappingStep acc b = acc ++ [(b, s.length)] := by
          unfold mappingStep
          rw [hnone, hlen]
        have hocc : occStep s b = s ++ [b] := by simp [occStep, hb]
        rw [hstep, hocc]
        refine ih (acc ++ [(b, s.length)]) (s ++ [b]) ?_
          (by simp [hlen])
        intro c
        rw [idIndex_append]
        by_cases hc : c = b
        · subst hc
          rw [alookup_append_none _ hnone, idIndex_none_iff.mpr hb]
          simp [alookup, idIndex]
        · cases h : alookup acc c with
          | some v =>
              rw [alookup_append_some _ h]
              rw [hinv c] at h
              rw [h]
          | none =>
              rw [alookup_append_none _ h]
              rw [hinv c] at h
              rw [h]
              simp [alookup, idIndex, hc]

/-- The rewrite applied to each stack/local value by
`canonicalize_symbolic_ids_u32`: ids found in the mapping are reassigned. -/
def rewriteValue {V : Type} (extract : V → Option Nat) (assign : V → Nat → V)
    (mapping : List (Nat × Nat)) (v : V) : V :=
  match extract v with
  | some id =>
      match alookup mapping id with
      | some mapped => assign v mapped
      | none => v
  | none => v

/-- `StackMachine::canonicalize_symbolic_ids_u32` (stack_machine.rs): build
the remapping by walking the stack, then the locals (in ascending key
order), then the supplied extra ids; if it is empty return unchanged, else
rewrite every value whose id is in the mapping.  Returns the rewritten
machine together with the mapping. -/
def StackMachine.canonicalize_symbolic_ids {V : Type} (m : StackMachine V)
    (extract : V → Option Nat) (assign : V → Nat → V) (extra_ids : List Nat) :
    StackMachine V × List (Nat × Nat) :=
  let walked := (m.stack.filterMap extract ++
    (m.locals.map Prod.snd).filterMap extract) ++ extra_ids
  let mapping := buildMapping walked
  if mapping.isEmpty then (m, mapping)
  else
    ({ m with
        stack := m.stack.map (rewriteValue extract assign mapping),
        locals := m.locals.map
          (fun kv => (kv.1, rewriteValue extract assign mapping kv.2)) },
      mapping)

/-- The exception-cause rule's id extractor: `Value::New(id) ↦ Some(id)`. -/
def vExtract : Value → Option Nat
  | Value.new id => some id
  | _ => none

/-- The exception-cause rule's id assigner: `*value = Value::New(mapped)`. -/
def vAssign : Value → Nat → Value := fun _ mapped => Value.new mapped

/-- Canonicalization instantiated at the exception-cause value domain. -/
def canonValue (m : StackMachine Value) (extras : List Nat) :
    StackMachine Value × List (Nat × Nat) :=
  m.canonicalize_symbolic_ids vExtract vAssign extras

/-- The ids encountered walking the machine state: stack first, then the
locals in ascending key order. -/
def stateIds (m : StackMachine Value) : List Nat :=
  m.stack.filterMap vExtract ++ (m.locals.map Prod.snd).filterMap vExtract

/-- Relabeling of one value by first-encounter index in `ord`. -/
def relabel (ord : List Nat) : Value → Value
  | Value.new id => Value.new ((idIndex ord id).getD id)
  | v => v

/-- Renaming of the symbolic id carried by one value. -/
def vmapIds (φ : Nat → Nat) : Value → Value
  | Value.new id => Value.new (φ id)
  | v => v

/-- Renaming of every symbolic id in a machine state. -/
def mapIds (φ : Nat → Nat) (m : StackMachine Value) : StackMachine Value :=
  { m with
      stack := m.stack.map (vmapIds φ),
      locals := m.locals.map (fun kv => (kv.1, vmapIds φ kv.2)) }

theorem StackMachine.eq_of_parts {V : Type} {m1 m2 : StackMachine V}
    (h1 : m1.stack = m2.stack) (h2 : m1.locals = m2.locals)
    (h3 : m1.default_value = m2.default_value) (h4 : m1.config = m2.config) :
    m1 = m2 := by
  cases m1
  cases m2
  simp_all

theorem vExtract_relabel (ord : List Nat) (v : Value) :
    vExtract (relabel ord v) =
      (vExtract v).map (fun id => (idIndex ord id).getD id) := by
  cases v <;> rfl

theorem vExtract_vmapIds (φ : Nat → Nat) (v : Value) :
    vExtract (vmapIds φ v) = (vExtract v).map φ := by
  cases v <;> rfl

theorem filterMap_vExtract_map {g : Nat → Nat} {F : Value → Value}
    (hF : ∀ v, vExtract (F v) = (vExtract v).map g) (l : List Value) :
    (l.map F).filterMap vExtract = (l.filterMap vExtract).map g := by
  induction l with
  | nil => simp
  | cons v t ih =>
      rw [List.map_cons, List.filterMap_cons, List.filterMap_cons, hF v]
      cases h : vExtract v with
      | none => simpa [h] using ih
      | some id => simp [h, ih]

theorem rewriteValue_eq_relabel {mapping : List (Nat × Nat)} {ord : List Nat}
    (h : ∀ a, alookup mapping a = idIndex ord a) (v : Value) :
    rewriteValue vExtract vAssign mapping v = relabel ord v := by
  cases v with
  | other => rfl
  | caught => rfl
  | new id =>
      show (match alookup mapping id with
            | some mapped => vAssign (Value.new id) mapped
            | none => Value.new id) = _
      rw [h id]
      cases hi : idIndex ord id with
      | some k => simp [relabel, vAssign, hi]
      | none => simp [relabel, hi]

theorem buildMapping_eq_nil {l : List Nat} (h : buildMapping l = []) : l = [] := by
  cases l with
  | nil => rfl
  | cons a t =>
      have hmem : a ∈ firstOcc (a :: t) := mem_firstOcc.mpr (by simp)
      have h2 := buildMapping_lookup (a :: t) a
      rw [h] at h2
      have h3 : (idIndex (firstOcc (a :: t)) a).isSome :=
        idIndex_isSome_iff.mpr hmem
      rw [← h2] at h3
      simp [alookup] at h3

/-- Componentwise characterization of `canonicalize_symbolic_ids_u32` at the
exception-cause domain: each value's id is replaced by its first-encounter
index over stack, locals, extras, and the returned mapping is exactly that
indexing. -/
theorem canonValue_spec (m : StackMachine Value) (extras : List Nat) :
    (canonValue m extras).1.stack =
      m.stack.map (relabel (firstOcc (stateIds m ++ extras))) ∧
    (canonValue m extras).1.locals =
      m.locals.map
        (fun kv => (kv.1, relabel (firstOcc (stateIds m ++ extras)) kv.2)) ∧
    (canonValue m extras).1.default_value = m.default_value ∧
    (canonValue m extras).1.config = m.config ∧
    ∀ a, alookup (canonValue m extras).2 a =
      idIndex (firstOcc (stateIds m ++ extras)) a := by
  have hwalk : (m.stack.filterMap vExtract ++
      (m.locals.map Prod.snd).filterMap vExtract) ++ extras =
      stateIds m ++ extras := rfl
  unfold canonValue StackMachine.canonicalize_symbolic_ids
  rw [hwalk]
  by_cases hemp : (buildMapping (stateIds m ++ extras)).isEmpty
  · rw [if_pos hemp]
    have hnil : stateIds m ++ extras = [] :=
      buildMapping_eq_nil (List.isEmpty_iff.mp hemp)
    obtain ⟨hstate, hext⟩ := List.append_eq_nil.mp hnil
    obtain ⟨hstk, hloc⟩ := List.append_eq_nil.mp hstate
    have hstackid : ∀ v ∈ m.stack,
        relabel (firstOcc (stateIds m ++ extras)) v = v := by
      intro v hv
      have : vExtract v = none := List.filterMap_eq_nil.mp hstk v hv
      cases v with
      | other => rfl
      | caught => rfl
      | new id => simp [vExtract] at this
    have hlocid : ∀ kv ∈ m.locals,
        relabel (firstOcc (stateIds m ++ extras)) kv.2 = kv.2 := by
      intro kv hkv
      have : vExtract kv.2 = none :=
        List.filterMap_eq_nil.mp hloc kv.2 (List.mem_map.mpr ⟨kv, hkv, rfl⟩)
      cases h2 : kv.2 with
      | other => rfl
      | caught => rfl
      | new id => rw [h2] at this; simp [vExtract] at this
    have hstack : m.stack.map (relabel (firstOcc (stateIds m ++ extras))) =
        m.stack :=
      calc m.stack.map (relabel (firstOcc (stateIds m ++ extras)))
          = m.stack.map id := List.map_congr_left (fun v hv => hstackid v hv)
        _ = m.stack := List.map_id _
    have hlocals : m.locals.map
        (fun kv => (kv.1, relabel (firstOcc (stateIds m ++ extras)) kv.2)) =
        m.locals :=
      calc m.locals.map
            (fun kv => (kv.1, relabel (firstOcc (stateIds m ++ extras)) kv.2))
          = m.locals.map id :=
            List.map_congr_left (fun kv hkv => by simp [hlocid kv hkv])
        _ = m.locals := List.map_id _
    refine ⟨hstack.symm, hlocals.symm, rfl, rfl, ?_⟩
    intro a
    exact buildMapping_lookup _ a
  · rw [if_neg hemp]
    refine ⟨?_, ?_, rfl, rfl, fun a => buildMapping_lookup _ a⟩
    · exact List.map_congr_left (fun v _ =>
        rewriteValue_eq_relabel (buildMapping_lookup _) v)
    · exact List.map_congr_left (fun kv _ => by
        rw [rewriteValue_eq_relabel (buildMapping_lookup _) kv.2])

theorem g_inj_on_ord {ord : List Nat} {x y : Nat} (hx : x ∈ ord) (hy : y ∈ ord)
    (h : (idIndex ord x).getD x = (idIndex ord y).getD y) : x = y := by
  obtain ⟨ix, hix⟩ := Option.isSome_iff_exists.mp (idIndex_isSome_iff.mpr hx)
  obtain ⟨iy, hiy⟩ := Option.isSome_iff_exists.mp (idIndex_isSome_iff.mpr hy)
  rw [hix, hiy] at h
  simp at h
  have h1 := idIndex_get hix
  have h2 := idIndex_get hiy
  rw [h] at h1
  rw [h1] at h2
  exact Option.some.inj h2

/-- After replacing each element of `l` by its first-encounter index, every
element indexes itself. -/
theorem selfIndexed (l : List Nat) :
    ∀ a ∈ l,
      idIndex
          (firstOcc (l.map (fun b => (idIndex (firstOcc l) b).getD b)))
          ((idIndex (firstOcc l) a).getD a) =
        some ((idIndex (firstOcc l) a).getD a) := by
  intro a ha
  have hinj : ∀ x ∈ l, ∀ y ∈ l,
      (fun b => (idIndex (firstOcc l) b).getD b) x =
        (fun b => (idIndex (firstOcc l) b).getD b) y → x = y :=
    fun x hx y hy h =>
      g_inj_on_ord (mem_firstOcc.mpr hx) (mem_firstOcc.mpr hy) h
  rw [firstOcc_map hinj]
  have hinjP : ∀ x ∈ firstOcc l,
      (fun b => (idIndex (firstOcc l) b).getD b) x =
        (fun b => (idIndex (firstOcc l) b).getD b) a → x = a :=
    fun x hxP h => g_inj_on_ord hxP (mem_firstOcc.mpr ha) h
  rw [idIndex_map_of_inj hinjP]
  obtain ⟨ia, hia⟩ := Option.isSome_iff_exists.mp
    (idIndex_isSome_iff.mpr (mem_firstOcc.mpr ha))
  rw [hia]
  simp [hia]

/-- The walked ids of a canonicalized machine are the original walked ids,
each replaced by its first-encounter index. -/
theorem stateIds_canon (m : StackMachine Value) (extras : List Nat) :
    stateIds (canonValue m extras).1 =
      (stateIds m).map
        (fun id => (idIndex (firstOcc (stateIds m ++ extras)) id).getD id) := by
  obtain ⟨hs, hl, -, -, -⟩ := canonValue_spec m extras
  show (canonValue m extras).1.stack.filterMap vExtract ++
      ((canonValue m extras).1.locals.map Prod.snd).filterMap vExtract = _
  rw [hs, hl]
  rw [filterMap_vExtract_map (vExtract_relabel _) m.stack]
  have hmm : ((m.locals.map
      (fun kv => (kv.1, relabel (firstOcc (stateIds m ++ extras)) kv.2))).map
        Prod.snd) =
      (m.locals.map Prod.snd).map (relabel (firstOcc (stateIds m ++ extras))) := by
    simp [List.map_map]
  rw [hmm, filterMap_vExtract_map (vExtract_relabel _) (m.locals.map Prod.snd)]
  rw [← List.map_append]
  rfl

theorem mem_stateIds_stack {m : StackMachine Value} {v : Value} {i : Nat}
    (hv : v ∈ m.stack) (hi : vExtract v = some i) : i ∈ stateIds m :=
  List.mem_append.mpr (Or.inl (List.mem_filterMap.mpr ⟨v, hv, hi⟩))

theorem mem_stateIds_local {m : StackMachine Value} {kv : Nat × Value} {i : Nat}
    (hkv : kv ∈ m.locals) (hi : vExtract kv.2 = some i) : i ∈ stateIds m :=
  List.mem_append.mpr (Or.inr (List.mem_filterMap.mpr
    ⟨kv.2, List.mem_map.mpr ⟨kv, hkv, rfl⟩, hi⟩))

/-- Every id living in a canonicalized state indexes itself in any further
canonicalization walk. -/
theorem canon_state_selfIndexed (m : StackMachine Value) (extras extras' : List Nat) :
    ∀ i ∈ stateIds (canonValue m extras).1,
      idIndex (firstOcc (stateIds (canonValue m extras).1 ++ extras')) i = some i := by
  intro i hi
  rw [idIndex_firstOcc_append extras' hi]
  have hcan := stateIds_canon m extras
  have hmapg : stateIds (canonValue m extras).1 =
      (stateIds m).map (fun b => (idIndex (firstOcc (stateIds m)) b).getD b) := by
    rw [hcan]
    exact List.map_congr_left (fun a ha => by
      rw [idIndex_firstOcc_append extras ha])
  rw [hmapg] at hi ⊢
  obtain ⟨a, ha, rfl⟩ := List.mem_map.mp hi
  exact selfIndexed (stateIds m) a ha

/-- Canonicalization is idempotent on the machine state, whatever extra ids
are supplied to the second pass. -/
theorem canon_idem (m : StackMachine Value) (extras extras' : List Nat) :
    (canonValue (canonValue m extras).1 extras').1 = (canonValue m extras).1 := by
  obtain ⟨hs2, hl2, hd2, hc2, -⟩ := canonValue_spec (canonValue m extras).1 extras'
  have hself := canon_state_selfIndexed m extras extras'
  refine StackMachine.eq_of_parts ?_ ?_ hd2 hc2
  · rw [hs2]
    calc (canonValue m extras).1.stack.map
          (relabel (firstOcc (stateIds (canonValue m extras).1 ++ extras')))
        = (canonValue m extras).1.stack.map id := by
          refine List.map_congr_left (fun v hv => ?_)
          cases hx : v with
          | other => rfl
          | caught => rfl
          | new i =>
              have hmem : i ∈ stateIds (canonValue m extras).1 :=
                mem_stateIds_stack hv (by rw [hx]; rfl)
              simp [relabel, hself i hmem]
      _ = (canonValue m extras).1.stack := List.map_id _
  · rw [hl2]
    calc (canonValue m extras).1.locals.map
          (fun kv => (kv.1,
            relabel (firstOcc (stateIds (canonValue m extras).1 ++ extras')) kv.2))
        = (canonValue m extras).1.locals.map id := by
          refine List.map_congr_left (fun kv hkv => ?_)
          have hrel : relabel
              (firstOcc (stateIds (canonValue m extras).1 ++ extras')) kv.2 =
              kv.2 := by
            cases hx : kv.2 with
            | other => rfl
            | caught => rfl
            | new i =>
                have hmem : i ∈ stateIds (canonValue m extras).1 :=
                  mem_stateIds_local hkv (by rw [hx]; rfl)
                simp [relabel, hself i hmem]
          show (kv.1, relabel _ kv.2) = id kv
          exact Prod.ext rfl hrel
      _ = (canonValue m extras).1.locals := List.map_id _

theorem stateIds_mapIds (φ : Nat → Nat) (m : StackMachine Value) :
    stateIds (mapIds φ m) = (stateIds m).map φ := by
  show (m.stack.map (vmapIds φ)).filterMap vExtract ++
      ((m.locals.map (fun kv => (kv.1, vmapIds φ kv.2))).map Prod.snd).filterMap
        vExtract = _
  rw [filterMap_vExtract_map (vExtract_vmapIds φ) m.stack]
  have hmm : (m.locals.map (fun kv => (kv.1, vmapIds φ kv.2))).map Prod.snd =
      (m.locals.map Prod.snd).map (vmapIds φ) := by
    simp [List.map_map]
  rw [hmm, filterMap_vExtract_map (vExtract_vmapIds φ) (m.locals.map Prod.snd)]
  rw [← List.map_append]
  rfl

/-- States that differ only by an injective relabeling of symbolic ids (with
correspondingly relabeled extra ids) canonicalize to the same state. -/
theorem canon_relabel_inv (m : StackMachine Value) (extras : List Nat)
    (φ : Nat → Nat) (hφ : Function.Injective φ) :
    (canonValue (mapIds φ m) (extras.map φ)).1 = (canonValue m extras).1 := by
  have hord : firstOcc (stateIds (mapIds φ m) ++ extras.map φ) =
      (firstOcc (stateIds m ++ extras)).map φ := by
    rw [stateIds_mapIds, ← List.map_append]
    exact firstOcc_map (fun x _ y _ h => hφ h)
  obtain ⟨hs2, hl2, hd2, hc2, -⟩ := canonValue_spec (mapIds φ m) (extras.map φ)
  obtain ⟨hs1, hl1, hd1, hc1, -⟩ := canonValue_spec m extras
  have hpoint : ∀ v : Value, (vExtract v = none ∨
      ∃ i, vExtract v = some i ∧ i ∈ stateIds m) →
      relabel ((firstOcc (stateIds m ++ extras)).map φ) (vmapIds φ v) =
        relabel (firstOcc (stateIds m ++ extras)) v := by
    rintro v (hnone | ⟨i, hsome, hmem⟩)
    · cases v with
      | other => rfl
      | caught => rfl
      | new i => simp [vExtract] at hnone
    · cases v with
      | other => simp [vExtract] at hsome
      | caught => simp [vExtract] at hsome
      | new j =>
          have hij : j = i := by simpa [vExtract] using hsome
          subst hij
          have hjord : j ∈ firstOcc (stateIds m ++ extras) :=
            mem_firstOcc.mpr (List.mem_append.mpr (Or.inl hmem))
          obtain ⟨k, hk⟩ := Option.isSome_iff_exists.mp
            (idIndex_isSome_iff.mpr hjord)
          have hmap : idIndex ((firstOcc (stateIds m ++ extras)).map φ) (φ j) =
              idIndex (firstOcc (stateIds m ++ extras)) j :=
            idIndex_map_of_inj (fun x _ h => hφ h)
          simp [relabel, vmapIds, hmap, hk]
  refine StackMachine.eq_of_parts ?_ ?_ (hd2.trans hd1.symm) (hc2.trans hc1.symm)
  · rw [hs2, hs1]
    show (m.stack.map (vmapIds φ)).map
        (relabel (firstOcc (stateIds (mapIds φ m) ++ extras.map φ))) = _
    rw [hord, List.map_map]
    refine List.map_congr_left (fun v hv => ?_)
    refine hpoint v ?_
    cases hx : vExtract v with
    | none => exact Or.inl rfl
    | some i => exact Or.inr ⟨i, rfl, mem_stateIds_stack hv hx⟩
  · rw [hl2, hl1]
    show (m.locals.map (fun kv => (kv.1, vmapIds φ kv.2))).map
        (fun kv => (kv.1,
          relabel (firstOcc (stateIds (mapIds φ m) ++ extras.map φ)) kv.2)) = _
    rw [hord, List.map_map]
    refine List.map_congr_left (fun kv hkv => ?_)
    show (kv.1, relabel _ (vmapIds φ kv.2)) = (kv.1, relabel _ kv.2)
    congr 1
    refine hpoint kv.2 ?_
    cases hx : vExtract kv.2 with
    | none => exact Or.inl rfl
    | some i => exact Or.inr ⟨i, rfl, mem_stateIds_local hkv hx⟩

/-- C5: `canonicalize_symbolic_ids` assigns fresh compact ids `0,1,2,…` in
first-encounter order walking the stack, then the locals, then the supplied
extra ids (the returned mapping sends every walked id to its first-encounter
index), and rewrites every id-carrying value accordingly while touching
nothing else; the operation is idempotent on the machine state; and two
states differing only by an injective relabeling of symbolic ids are equal
after canonicalization. -/
theorem canonicalizeSymbolicIdsLaw (m : StackMachine Value) (extras : List Nat) :
    ((canonValue m extras).1.stack =
        m.stack.map (relabel (firstOcc (stateIds m ++ extras))) ∧
      (canonValue m extras).1.locals =
        m.locals.map
          (fun kv => (kv.1, relabel (firstOcc (stateIds m ++ extras)) kv.2)) ∧
      (canonValue m extras).1.default_value = m.default_value ∧
      (canonValue m extras).1.config = m.config ∧
      ∀ a, alookup (canonValue m extras).2 a =
        idIndex (firstOcc (stateIds m ++ extras)) a) ∧
    (∀ extras' : List Nat,
      (canonValue (canonValue m extras).1 extras').1 = (canonValue m extras).1) ∧
    (∀ φ : Nat → Nat, Function.Injective φ →
      (canonValue (mapIds φ m) (extras.map φ)).1 = (canonValue m extras).1) :=
  ⟨canonValue_spec m extras, fun extras' => canon_idem m extras extras',
    fun φ hφ => canon_relabel_inv m extras φ hφ⟩

/-- C5 (witness): the canonicalization law applied to a machine holding
`New 10`, `New 20` on the stack and `New 20` in local 1, with the injective
relabeling `Nat.succ`. -/
theorem canonicalizeSymbolicIdsLawWitness :
    (canonValue
        (canonValue
          { stack := [Value.new 10, Value.new 20], locals := [(1, Value.new 20)],
            default_value := Value.other,
            config := StackMachineConfig.default } []).1 []).1 =
      (canonValue
        { stack := [Value.new 10, Value.new 20], locals := [(1, Value.new 20)],
          default_value := Value.other,
          config := StackMachineConfig.default } []).1 ∧
    (canonValue
        (mapIds Nat.succ
          { stack := [Value.new 10, Value.new 20], locals := [(1, Value.new 20)],
            default_value := Value.other,
            config := StackMachineConfig.default }) ([].map Nat.succ)).1 =
      (canonValue
        { stack := [Value.new 10, Value.new 20], locals := [(1, Value.new 20)],
          default_value := Value.other,
          config := StackMachineConfig.default } []).1 := by
  have h := canonicalizeSymbolicIdsLaw
    { stack := [Value.new 10, Value.new 20], locals := [(1, Value.new 20)],
      default_value := Value.other, config := StackMachineConfig.default } []
  exact ⟨h.2.1 [], h.2.2 Nat.succ (fun a b hab => Nat.succ_injective hab)⟩

/-! ## Symbolic-identity cap (stack_machine.rs) -/

/-- Ordered duplicate-free insertion; models `BTreeSet::insert`. -/
def sortedInsert : List Nat → Nat → List Nat
  | [], a => [a]
  | b :: t, a =>
      if a < b then a :: b :: t
      else if a = b then b :: t
      else b :: sortedInsert t a

/-- The ascending duplicate-free list of a list's elements; models
collecting into a `BTreeSet`. -/
def sortedDedup (l : List Nat) : List Nat := l.foldl sortedInsert []

theorem mem_sortedInsert {s : List Nat} {a c : Nat} :
    c ∈ sortedInsert s a ↔ c = a ∨ c ∈ s := by
  induction s with
  | nil => simp [sortedInsert]
  | cons b t ih =>
      unfold sortedInsert
      by_cases h1 : a < b
      · simp [h1]
      · by_cases h2 : a = b
        · subst h2
          simp [h1]
        · simp [h1, h2, ih]
          tauto

theorem pairwise_sortedInsert {s : List Nat} (hs : s.Pairwise (· < ·)) (a : Nat) :
    (sortedInsert s a).Pairwise (· < ·) := by
  induction s with
  | nil => simp [sortedInsert]
  | cons b t ih =>
      rw [List.pairwise_cons] at hs
      obtain ⟨hb, ht⟩ := hs
      unfold sortedInsert
      by_cases h1 : a < b
      · rw [if_pos h1, List.pairwise_cons]
        refine ⟨?_, List.pairwise_cons.mpr ⟨hb, ht⟩⟩
        intro x hx
        rcases List.mem_cons.mp hx with rfl | hx
        · exact h1
        · exact h1.trans (hb x hx)
      · by_cases h2 : a = b
        · rw [if_neg h1, if_pos h2]
          exact List.pairwise_cons.mpr ⟨hb, ht⟩
        · rw [if_neg h1, if_neg h2, List.pairwise_cons]
          refine ⟨?_, ih ht⟩
          intro x hx
          rcases mem_sortedInsert.mp hx with rfl | hx
          · omega
          · exact hb x hx

theorem mem_foldl_sortedInsert (l : List Nat) (s : List Nat) (a : Nat) :
    a ∈ l.foldl sortedInsert s ↔ a ∈ s ∨ a ∈ l := by
  induction l generalizing s with
  | nil => simp
  | cons b t ih =>
      rw [List.foldl_cons, ih, mem_sortedInsert]
      simp only [List.mem_cons]
      tauto

theorem pairwise_foldl_sortedInsert (l : List Nat) (s : List Nat)
    (hs : s.Pairwise (· < ·)) : (l.foldl sortedInsert s).Pairwise (· < ·) := by
  induction l generalizing s with
  | nil => exact hs
  | cons b t ih => exact ih (sortedInsert s b) (pairwise_sortedInsert hs b)

theorem mem_sortedDedup {l : List Nat} {a : Nat} :
    a ∈ sortedDedup l ↔ a ∈ l := by
  simpa using mem_foldl_sortedInsert l [] a

theorem pairwise_sortedDedup (l : List Nat) :
    (sortedDedup l).Pairwise (· < ·) :=
  pairwise_foldl_sortedInsert l [] (by simp)

/-- The live symbolic ids of a machine state: every id extracted from the
stack chained with the locals values, as an ordered set. -/
def liveIds (m : StackMachine Value) : List Nat :=
  sortedDedup ((m.stack ++ m.locals.map Prod.snd).filterMap vExtract)

/-- `StackMachine::enforce_symbolic_identity_cap_u32` (stack_machine.rs):
`None` when no cap is configured; otherwise keep the greatest
`max_symbolic_identities` live ids (`live_ids.iter().rev().take(max)`,
collected back into an ascending set) and apply the unknown-ifier to every
value whose id was evicted. -/
def StackMachine.enforce_symbolic_identity_cap {V : Type} (m : StackMachine V)
    (extract : V → Option Nat) (set_unknown : V → V) :
    Option (List Nat × StackMachine V) :=
  match m.config.max_symbolic_identities with
  | none => none
  | some max =>
      let live_ids := sortedDedup ((m.stack ++ m.locals.map Prod.snd).filterMap
        extract)
      let tracked_ids := (live_ids.reverse.take max).reverse
      some (tracked_ids,
        { m with
            stack := m.stack.map (fun v =>
              match extract v with
              | some id => if id ∈ tracked_ids then v else set_unknown v
              | none => v),
            locals := m.locals.map (fun kv =>
              match extract kv.2 with
              | some id => if id ∈ tracked_ids then kv else (kv.1, set_unknown kv.2)
              | none => kv) })

/-- In a strictly descending list, the first `N` elements are exactly the
members exceeded by fewer than `N` members. -/
theorem take_descending_mem {l : List Nat} (hl : l.Pairwise (· > ·)) (N a : Nat) :
    a ∈ l.take N ↔ a ∈ l ∧ l.countP (fun b => decide (a < b)) < N := by
  induction l generalizing N with
  | nil => simp
  | cons b t ih =>
      rw [List.pairwise_cons] at hl
      obtain ⟨hb, ht⟩ := hl
      cases N with
      | zero => simp
      | succ N =>
          rw [List.take_succ_cons, List.countP_cons]
          by_cases hab : a = b
          · subst hab
            have hzero : t.countP (fun b => decide (a < b)) = 0 := by
              rw [List.countP_eq_zero]
              intro x hx
              have := hb x hx
              simp
              omega
            simp [hzero]
          · simp only [List.mem_cons]
            constructor
            · rintro (rfl | hmem)
              · exact absurd rfl hab
              · obtain ⟨hat, hcount⟩ := (ih ht N).mp hmem
                have halt : a < b := hb a hat
                refine ⟨Or.inr hat, ?_⟩
                simp [halt]
                omega
            · rintro ⟨rfl | hat, hcount⟩
              · exact absurd rfl hab
              · have halt : a < b := hb a hat
                simp [halt] at hcount
                exact Or.inr ((ih ht N).mpr ⟨hat, by omega⟩)

/-- C6: with `max_symbolic_identities = N`, `enforce_symbolic_identity_cap`
returns exactly the `N` greatest live ids of stack and locals (all of them
when at most `N` exist — an id is retained iff fewer than `N` live ids
exceed it), applies the unknown-ifier to every stack or local value whose id
was evicted, and leaves retained-id values, id-less values, and everything
else in the machine unchanged. -/
theorem enforceSymbolicIdentityCapLaw (m : StackMachine Value) (N : Nat)
    (hcfg : m.config.max_symbolic_identities = some N) :
    ∃ tracked m',
      m.enforce_symbolic_identity_cap vExtract (fun _ => Value.other) =
        some (tracked, m') ∧
      (∀ a, a ∈ tracked ↔
        a ∈ liveIds m ∧ (liveIds m).countP (fun b => decide (a < b)) < N) ∧
      (∀ a, a ∈ liveIds m ↔
        ∃ v, (v ∈ m.stack ∨ v ∈ m.locals.map Prod.snd) ∧ vExtract v = some a) ∧
      m'.stack = m.stack.map (fun v =>
        match vExtract v with
        | some id => if id ∈ tracked then v else Value.other
        | none => v) ∧
      m'.locals = m.locals.map (fun kv =>
        match vExtract kv.2 with
        | some id => if id ∈ tracked then kv else (kv.1, Value.other)
        | none => kv) ∧
      m'.default_value = m.default_value ∧ m'.config = m.config := by
  refine ⟨((liveIds m).reverse.take N).reverse,
    { m with
        stack := m.stack.map (fun v =>
          match vExtract v with
          | some id =>
              if id ∈ ((liveIds m).reverse.take N).reverse then v
              else Value.other
          | none => v),
        locals := m.locals.map (fun kv =>
          match vExtract kv.2 with
          | some id =>
              if id ∈ ((liveIds m).reverse.take N).reverse then kv
              else (kv.1, Value.other)
          | none => kv) },
    ?_, ?_, ?_, rfl, rfl, rfl, rfl⟩
  · unfold StackMachine.enforce_symbolic_identity_cap
    rw [hcfg]
    rfl
  · intro a
    rw [List.mem_reverse]
    have hdesc : (liveIds m).reverse.Pairwise (· > ·) := by
      rw [List.pairwise_reverse]
      exact pairwise_sortedDedup _
    rw [take_descending_mem hdesc N a, List.mem_reverse]
    have hcount : (liveIds m).reverse.countP (fun b => decide (a < b)) =
        (liveIds m).countP (fun b => decide (a < b)) :=
      (List.reverse_perm (liveIds m)).countP_eq _
    rw [hcount]
  · intro a
    unfold liveIds
    rw [mem_sortedDedup, List.mem_filterMap]
    constructor
    · rintro ⟨v, hv, hev⟩
      exact ⟨v, List.mem_append.mp hv, hev⟩
    · rintro ⟨v, hv, hev⟩
      exact ⟨v, List.mem_append.mpr hv, hev⟩

/-- C6 (witness): the cap law on the machine from the repository's own unit
test — ids `10, 30, 20` on the stack, `30, 40` in locals, cap 2. -/
theorem enforceSymbolicIdentityCapLawWitness :
    ∃ tracked m',
      StackMachine.enforce_symbolic_identity_cap
        { stack := [Value.new 10, Value.new 30, Value.new 20],
          locals := [(5, Value.new 30), (7, Value.new 40)],
          default_value := Value.other,
          config := { max_stack_depth := none, max_locals := none,
                      max_symbolic_identities := some 2 } }
        vExtract (fun _ => Value.other) = some (tracked, m') ∧
      (∀ a, a ∈ tracked ↔
        a ∈ liveIds
            { stack := [Value.new 10, Value.new 30, Value.new 20],
              locals := [(5, Value.new 30), (7, Value.new 40)],
              default_value := Value.other,
              config := { max_stack_depth := none, max_locals := none,
                          max_symbolic_identities := some 2 } } ∧
          (liveIds
            { stack := [Value.new 10, Value.new 30, Value.new 20],
              locals := [(5, Value.new 30), (7, Value.new 40)],
              default_value := Value.other,
              config := { max_stack_depth := none, max_locals := none,
                          max_symbolic_identities := some 2 } }).countP
            (fun b => decide (a < b)) < 2) ∧
      (∀ a, a ∈ liveIds
          { stack := [Value.new 10, Value.new 30, Value.new 20],
            locals := [(5, Value.new 30), (7, Value.new 40)],
            default_value := Value.other,
            config := { max_stack_depth := none, max_locals := none,
                        max_symbolic_identities := some 2 } } ↔
        ∃ v, (v ∈ [Value.new 10, Value.new 30, Value.new 20] ∨
            v ∈ [(5, Value.new 30), (7, Value.new 40)].map Prod.snd) ∧
          vExtract v = some a) ∧
      m'.stack = [Value.new 10, Value.new 30, Value.new 20].map (fun v =>
        match vExtract v with
        | some id => if id ∈ tracked then v else Value.other
        | none => v) ∧
      m'.locals = [(5, Value.new 30), (7, Value.new 40)].map (fun kv =>
        match vExtract kv.2 with
        | some id => if id ∈ tracked then kv else (kv.1, Value.other)
        | none => kv) ∧
      m'.default_value = Value.other ∧
      m'.config = { max_stack_depth := none, max_locals := none,
                    max_symbolic_identities := some 2 } :=
  enforceSymbolicIdentityCapLaw
    { stack := [Value.new 10, Value.new 30, Value.new 20],
      locals := [(5, Value.new 30), (7, Value.new 40)],
      default_value := Value.other,
      config := { max_stack_depth := none, max_locals := none,
                  max_symbolic_identities := some 2 } } 2 rfl

/-! ## Baseline engine (src/baseline.rs)

SARIF results are modelled with exactly the fields the baseline reads. -/

structure LogicalLocation where
  name : Option String
  deriving Repr, DecidableEq

structure Region where
  start_line : Option Int
  deriving Repr, DecidableEq

structure ArtifactLocation where
  uri : Option String
  deriving Repr, DecidableEq

structure PhysicalLocation where
  artifact_location : Option ArtifactLocation
  region : Option Region
  deriving Repr, DecidableEq

structure Location where
  logical_locations : Option (List LogicalLocation)
  physical_location : Option PhysicalLocation
  deriving Repr, DecidableEq

structure SarifMessage where
  text : Option String
  deriving Repr, DecidableEq

structure SarifResult where
  rule_id : Option String
  message : SarifMessage
  locations : Option (List Location)
  deriving Repr, DecidableEq

/-- `BaselineLocation` (baseline.rs). -/
structure BaselineLocation where
  logical : Option String
  uri : Option String
  start_line : Option Int
  deriving Repr, DecidableEq

/-- `BaselineEntry` (baseline.rs). -/
structure BaselineEntry where
  rule_id : String
  message : String
  locations : List BaselineLocation
  deriving Repr, DecidableEq

/-- Rust's derived `Ord` on `Option`: `None` sorts before `Some`. -/
def cmpOption {α : Type} (c : α → α → Ordering) : Option α → Option α → Ordering
  | none, none => Ordering.eq
  | none, some _ => Ordering.lt
  | some _, none => Ordering.gt
  | some a, some b => c a b

/-- Rust's derived lexicographic `Ord` on slices. -/
def cmpList {α : Type} (c : α → α → Ordering) : List α → List α → Ordering
  | [], [] => Ordering.eq
  | [], _ :: _ => Ordering.lt
  | _ :: _, [] => Ordering.gt
  | a :: as', b :: bs => (c a b).then (cmpList c as' bs)

/-- Derived `Ord for BaselineLocation`: field-lexicographic. -/
def cmpLoc (x y : BaselineLocation) : Ordering :=
  (cmpOption compare x.logical y.logical).then
    ((cmpOption compare x.uri y.uri).then
      (cmpOption compare x.start_line y.start_line))

/-- Derived `Ord for BaselineEntry`: field-lexicographic. -/
def cmpEntry (x y : BaselineEntry) : Ordering :=
  (compare x.rule_id y.rule_id).then
    ((compare x.message y.message).then (cmpList cmpLoc x.locations y.locations))

/-- Stable ordered insertion used to model `Vec::sort` / `BTreeSet`. -/
def insertSortedBy {α : Type} (c : α → α → Ordering) (a : α) : List α → List α
  | [] => [a]
  | b :: t =>
      if c a b = Ordering.gt then b :: insertSortedBy c a t else a :: b :: t

/-- Stable sort by a comparator (insertion sort). -/
def sortBy {α : Type} (c : α → α → Ordering) (l : List α) : List α :=
  l.foldr (insertSortedBy c) []

/-- `BaselineLocation::from(&Location)` (baseline.rs). -/
def toBaselineLocation (loc : Location) : BaselineLocation :=
  { logical := (loc.logical_locations.bind (fun ls => ls.head?)).bind
      (fun l => l.name),
    uri := (loc.physical_location.bind
      (fun p => p.artifact_location)).bind (fun a => a.uri),
    start_line := (loc.physical_location.bind (fun p => p.region)).bind
      (fun r => r.start_line) }

/-- `BaselineEntry::from(&SarifResult)` (baseline.rs): default-empty rule id
and message text, locations canonicalized by sorting. -/
def toEntry (r : SarifResult) : BaselineEntry :=
  { rule_id := r.rule_id.getD "",
    message := r.message.text.getD "",
    locations := sortBy cmpLoc ((r.locations.getD []).map toBaselineLocation) }

/-- `Baseline` (baseline.rs). -/
structure Baseline where
  version : Nat
  findings : List BaselineEntry
  deriving Repr, DecidableEq

/-- `BTreeSet::insert` on the findings set: no-op on an already-present
entry, ordered insertion otherwise. -/
def insertEntry (l : List BaselineEntry) (e : BaselineEntry) : List BaselineEntry :=
  if e ∈ l then l else insertSortedBy cmpEntry e l

/-- `Baseline::capture` (baseline.rs): canonicalize every result and collect
into the ordered set. -/
def Baseline.capture (results : List SarifResult) : Baseline :=
  { version := 1,
    findings := results.foldl (fun acc r => insertEntry acc (toEntry r)) [] }

/-- `Baseline::filter` (baseline.rs): keep the results whose canonicalized
entry is absent from the findings set (`binary_search(..).is_err()` on the
sorted duplicate-free findings list is exactly non-membership). -/
def Baseline.filter (b : Baseline) (results : List SarifResult) :
    List SarifResult :=
  results.filter (fun r => !(b.findings.contains (toEntry r)))

theorem mem_insertSortedBy {α : Type} {c : α → α → Ordering} {a x : α}
    {l : List α} : x ∈ insertSortedBy c a l ↔ x = a ∨ x ∈ l := by
  induction l with
  | nil => simp [insertSortedBy]
  | cons b t ih =>
      unfold insertSortedBy
      by_cases h : c a b = Ordering.gt
      · simp only [if_pos h, List.mem_cons, ih]
        tauto
      · simp only [if_neg h, List.mem_cons]

theorem mem_insertEntry {l : List BaselineEntry} {e x : BaselineEntry} :
    x ∈ insertEntry l e ↔ x = e ∨ x ∈ l := by
  unfold insertEntry
  by_cases h : e ∈ l
  · simp only [if_pos h]
    constructor
    · exact Or.inr
    · rintro (rfl | hx)
      · exact h
      · exact hx
  · rw [if_neg h]
    exact mem_insertSortedBy

theorem mem_capture_findings {R : List SarifResult} {e : BaselineEntry} :
    e ∈ (Baseline.capture R).findings ↔ ∃ r ∈ R, toEntry r = e := by
  show e ∈ R.foldl (fun acc r => insertEntry acc (toEntry r)) [] ↔ _
  suffices h : ∀ (R : List SarifResult) (acc : List BaselineEntry),
      e ∈ R.foldl (fun acc r => insertEntry acc (toEntry r)) acc ↔
        e ∈ acc ∨ ∃ r ∈ R, toEntry r = e by
    simpa using h R []
  intro R
  induction R with
  | nil => simp
  | cons r t ih =>
      intro acc
      rw [List.foldl_cons, ih, mem_insertEntry]
      simp only [List.mem_cons]
      constructor
      · rintro ((rfl | h) | ⟨r', hr', he⟩)
        · exact Or.inr ⟨r, Or.inl rfl, rfl⟩
        · exact Or.inl h
        · exact Or.inr ⟨r', Or.inr hr', he⟩
      · rintro (h | ⟨r', (rfl | hr'), he⟩)
        · exact Or.inl (Or.inr h)
        · exact Or.inl (Or.inl he.symm)
        · exact Or.inr ⟨r', hr', he⟩

/-- C7: `capture(R).filter(R)` is empty, and `capture(R1).filter(R2)` keeps
exactly those results of `R2` whose canonicalized entry (rule id, message
text, sorted locations) matches no result of `R1`, in their original
order. -/
theorem baselineCaptureFilterLaw :
    (∀ R : List SarifResult, (Baseline.capture R).filter R = []) ∧
    (∀ R1 R2 : List SarifResult,
      (Baseline.capture R1).filter R2 =
        R2.filter (fun r => decide (¬ ∃ r1 ∈ R1, toEntry r1 = toEntry r))) := by
  constructor
  · intro R
    rw [Baseline.filter, List.filter_eq_nil_iff]
    intro r hr
    have hmem : toEntry r ∈ (Baseline.capture R).findings :=
      mem_capture_findings.mpr ⟨r, hr, rfl⟩
    have hc : (Baseline.capture R).findings.contains (toEntry r) = true :=
      List.elem_iff.mpr hmem
    simp [hc, hmem]
  · intro R1 R2
    rw [Baseline.filter]
    refine List.filter_congr (fun r _ => ?_)
    by_cases hmem : toEntry r ∈ (Baseline.capture R1).findings
    · have hex : ∃ r1 ∈ R1, toEntry r1 = toEntry r :=
        mem_capture_findings.mp hmem
      have hc : (Baseline.capture R1).findings.contains (toEntry r) = true :=
        List.elem_iff.mpr hmem
      simp [hc, hex, hmem]
    · have hex : ¬ ∃ r1 ∈ R1, toEntry r1 = toEntry r := fun hex =>
        hmem (mem_capture_findings.mpr hex)
      have hc : (Baseline.capture R1).findings.contains (toEntry r) = false := by
        cases hb : (Baseline.capture R1).findings.contains (toEntry r) with
        | true => exact absurd (List.elem_iff.mp hb) hmem
        | false => rfl
      simp [hc, hex, hmem]

/-! ## Baseline loading (src/baseline.rs `load_baseline`) -/

/-- Outcome of `fs::read_to_string` on the baseline path, as seen by
`load_baseline`: the file's contents, a `NotFound` error, or any other I/O
error. -/
inductive FsReadResult where
  | content (s : String)
  | notFound
  | otherError
  deriving Repr, DecidableEq

/-- Adjacent deduplication of the sorted findings (`Vec::dedup`). -/
def dedupAdj : List BaselineEntry → List BaselineEntry
  | [] => []
  | [a] => [a]
  | a :: b :: t => if a = b then dedupAdj (b :: t) else a :: dedupAdj (b :: t)

/-- `load_baseline` (baseline.rs): `NotFound` is success with no baseline;
any other read failure is an error; JSON parsing (`serde_json::from_str`,
an external collaborator modelled as a parameter) failing is an error; on
success the findings are re-sorted and deduplicated. -/
def load_baseline (read : FsReadResult)
    (parse : String → Option Baseline) : Except String (Option Baseline) :=
  match read with
  | FsReadResult.notFound => Except.ok none
  | FsReadResult.otherError => Except.error "failed to read baseline file"
  | FsReadResult.content s =>
      match parse s with
      | none => Except.error "failed to parse baseline file"
      | some b =>
          Except.ok (some
            { b with findings := dedupAdj (sortBy cmpEntry b.findings) })

/-- C8: a missing baseline file is success with no baseline; malformed JSON
is an error; any other read failure is an error. -/
theorem loadBaselineErrorPolicy :
    (∀ parse : String → Option Baseline,
      load_baseline FsReadResult.notFound parse = Except.ok none) ∧
    (∀ (s : String) (parse : String → Option Baseline), parse s = none →
      load_baseline (FsReadResult.content s) parse =
        Except.error "failed to parse baseline file") ∧
    (∀ parse : String → Option Baseline,
      load_baseline FsReadResult.otherError parse =
        Except.error "failed to read baseline file") := by
  refine ⟨fun parse => rfl, fun s parse h => ?_, fun parse => rfl⟩
  simp [load_baseline, h]

/-- C8 (witness): the error policy evaluated at a parser rejecting
everything (malformed JSON) and at the missing-file read outcome. -/
theorem loadBaselineErrorPolicyWitness :
    load_baseline FsReadResult.notFound (fun _ => none) = Except.ok none ∧
    load_baseline (FsReadResult.content "not json") (fun _ => none) =
      Except.error "failed to parse baseline file" ∧
    load_baseline FsReadResult.otherError (fun _ => none) =
      Except.error "failed to read baseline file" :=
  ⟨loadBaselineErrorPolicy.1 (fun _ => none),
    loadBaselineErrorPolicy.2.1 "not json" (fun _ => none) rfl,
    loadBaselineErrorPolicy.2.2 (fun _ => none)⟩

/-! ## Classpath index (src/classpath.rs) -/

/-- The slice of `ir::Class` consumed by `resolve_classpath`. -/
structure ClasspathClass where
  name : String
  artifact_index : Int
  deriving Repr, DecidableEq

/-- `artifact_uri` (classpath.rs): the URI of the artifact at `index`, or
the empty string when the index is out of range (a negative `i64` cast to
`usize` is out of range) or the artifact has no URI.  An artifact is
modelled by its optional `location.uri`. -/
def artifact_uri (artifacts : List (Option String)) (index : Int) : String :=
  if index < 0 then ""
  else (((artifacts.get? index.toNat).join).getD "")

/-- `BTreeMap<String, Vec<i64>>` insertion for `class_map`: keeps keys in
ascending order, appends the index to an existing entry. -/
def classMapInsert (l : List (String × List Int)) (name : String) (idx : Int) :
    List (String × List Int) :=
  match l with
  | [] => [(name, [idx])]
  | (k, v) :: t =>
      if name < k then (name, [idx]) :: (k, v) :: t
      else if name = k then (k, v ++ [idx]) :: t
      else (k, v) :: classMapInsert t name idx

/-- The `class_map` built by the first loop of `resolve_classpath`. -/
def buildClassMap (classes : List ClasspathClass) : List (String × List Int) :=
  classes.foldl (fun acc c => classMapInsert acc c.name c.artifact_index) []

/-- String-keyed association lookup (`BTreeMap::get`). -/
def alookupStr {β : Type} : List (String × β) → String → Option β
  | [], _ => none
  | (k, v) :: t, a => if a = k then some v else alookupStr t a

/-- `Vec::join` on strings. -/
def sjoin (sep : String) : List String → String
  | [] => ""
  | [x] => x
  | x :: rest => x ++ sep ++ sjoin sep rest

/-- One `{index} ({uri})` element of a duplicate listing. -/
def entryStr (artifacts : List (Option String)) (i : Int) : String :=
  toString i ++ " (" ++ artifact_uri artifacts i ++ ")"

/-- One `{name}: [...]` fragment of the strict-mode duplicate error. -/
def dupFragment (artifacts : List (Option String)) (name : String)
    (indices : List Int) : String :=
  name ++ ": [" ++ sjoin ", " (indices.map (entryStr artifacts)) ++ "]"

/-- Stable insertion by artifact-URI key (`indices.sort_by(uri cmp)`). -/
def insertByUri (artifacts : List (Option String)) (i : Int) :
    List Int → List Int
  | [] => [i]
  | j :: t =>
      if artifact_uri artifacts i < artifact_uri artifacts j then i :: j :: t
      else j :: insertByUri artifacts i t

/-- `indices.sort_by(|a, b| uri(a).cmp(&uri(b)))`. -/
def sortByUri (artifacts : List (Option String)) (l : List Int) : List Int :=
  l.foldr (insertByUri artifacts) []

/-- `ClasspathIndex` (classpath.rs): `class_name → artifact_index`. -/
structure ClasspathIndex where
  classes : List (String × Int)
  deriving Repr, DecidableEq

/-- `resolve_classpath` (classpath.rs).  Strict mode collects one fragment
per duplicated name (in map order) and fails; permissive mode sorts each
duplicated entry's indices by artifact URI.  Either way the surviving map
takes each entry's first index.  (The function also tallies missing
non-platform references into a `_missing` set that it immediately discards;
that computation has no observable effect and is omitted.) -/
def resolve_classpath (classes : List ClasspathClass)
    (artifacts : List (Option String)) (allow_duplicate_classes : Bool) :
    Except String ClasspathIndex :=
  let class_map := buildClassMap classes
  if allow_duplicate_classes then
    let sorted_map := class_map.map (fun kv =>
      if kv.2.length ≤ 1 then kv else (kv.1, sortByUri artifacts kv.2))
    Except.ok { classes := sorted_map.map (fun kv => (kv.1, kv.2.headI)) }
  else
    let error_duplicates := (class_map.filter (fun kv =>
      decide (1 < kv.2.length))).map (fun kv => dupFragment artifacts kv.1 kv.2)
    if error_duplicates.isEmpty then
      Except.ok { classes := class_map.map (fun kv => (kv.1, kv.2.headI)) }
    else
      Except.error ("duplicate classes found: " ++ sjoin ", " error_duplicates)

/-- The artifact indices of the classes bearing a name, in scan order. -/
def dupIndices (classes : List ClasspathClass) (name : String) : List Int :=
  (classes.filter (fun c => c.name = name)).map (fun c => c.artifact_index)

/-- `[]` as `none`, else `some`. -/
def optList (l : List Int) : Option (List Int) :=
  if l = [] then none else some l

theorem sjoin_infix {sep x : String} {parts : List String} (h : x ∈ parts) :
    ∃ pre post, sjoin sep parts = pre ++ x ++ post := by
  induction parts with
  | nil => cases h
  | cons y rest ih =>
      cases rest with
      | nil =>
          simp at h
          exact ⟨"", "", by simp [sjoin, h]⟩
      | cons z rest' =>
          rcases List.mem_cons.mp h with rfl | hx
          · refine ⟨"", sep ++ sjoin sep (z :: rest'), ?_⟩
            show x ++ sep ++ sjoin sep (z :: rest') = "" ++ x ++ _
            rw [String.empty_append, String.append_assoc]
          · obtain ⟨pre, post, hpp⟩ := ih hx
            refine ⟨y ++ sep ++ pre, post, ?_⟩
            show y ++ sep ++ sjoin sep (z :: rest') = _
            rw [hpp, ← String.append_assoc, ← String.append_assoc]

theorem alookupStr_none_of_forall_lt {β : Type} {l : List (String × β)}
    {name : String} (h : ∀ k ∈ l.map Prod.fst, name < k) :
    alookupStr l name = none := by
  induction l with
  | nil => rfl
  | cons kv t ih =>
      have hk : name < kv.1 := h kv.1 (by simp)
      have hne : name ≠ kv.1 := ne_of_lt hk
      obtain ⟨k0, v0⟩ := kv
      simp only [alookupStr, if_neg hne]
      exact ih (fun k hkt => h k (by simp [hkt]))

theorem mem_keys_classMapInsert {t : List (String × List Int)} {n key : String}
    {i : Int} :
    key ∈ (classMapInsert t n i).map Prod.fst ↔
      key = n ∨ key ∈ t.map Prod.fst := by
  induction t with
  | nil => simp [classMapInsert]
  | cons kv t ih =>
      obtain ⟨k, v⟩ := kv
      unfold classMapInsert
      by_cases h1 : n < k
      · simp [h1]
      · by_cases h2 : n = k
        · subst h2
          simp [h1]
        · simp [h1, h2, ih]
          tauto

theorem classMapInsert_sorted {l : List (String × List Int)} {n : String}
    {i : Int} (hs : (l.map Prod.fst).Pairwise (· < ·)) :
    ((classMapInsert l n i).map Prod.fst).Pairwise (· < ·) := by
  induction l with
  | nil => simp [classMapInsert]
  | cons kv t ih =>
      obtain ⟨k, v⟩ := kv
      rw [List.map_cons, List.pairwise_cons] at hs
      obtain ⟨hk, ht⟩ := hs
      unfold classMapInsert
      by_cases h1 : n < k
      · rw [if_pos h1]
        simp only [List.map_cons, List.pairwise_cons]
        refine ⟨?_, hk, ht⟩
        intro b hb
        rcases List.mem_cons.mp hb with rfl | hb
        · exact h1
        · exact h1.trans (hk b hb)
      · by_cases h2 : n = k
        · rw [if_neg h1, if_pos h2]
          simp only [List.map_cons, List.pairwise_cons]
          exact ⟨hk, ht⟩
        · rw [if_neg h1, if_neg h2]
          have hkn : k < n := by
            rcases lt_trichotomy n k with h | h | h
            · exact absurd h h1
            · exact absurd h h2
            · exact h
          simp only [List.map_cons, List.pairwise_cons]
          refine ⟨?_, ih ht⟩
          intro b hb
          rcases mem_keys_classMapInsert.mp hb with rfl | hb
          · exact hkn
          · exact hk b hb

/-- `BTreeMap` insertion against a sorted map, seen through lookup. -/
theorem alookupStr_classMapInsert {l : List (String × List Int)} {n : String}
    {i : Int} (hs : (l.map Prod.fst).Pairwise (· < ·)) (name : String) :
    alookupStr (classMapInsert l n i) name =
      if name = n then some ((alookupStr l n).getD [] ++ [i])
      else alookupStr l name := by
  induction l with
  | nil =>
      by_cases h : name = n
      · simp [classMapInsert, alookupStr, h]
      · simp [classMapInsert, alookupStr, h]
  | cons kv t ih =>
      obtain ⟨k, v⟩ := kv
      rw [List.map_cons, List.pairwise_cons] at hs
      obtain ⟨hk, ht⟩ := hs
      unfold classMapInsert
      by_cases h1 : n < k
      · rw [if_pos h1]
        have hlookup : alookupStr ((k, v) :: t) n = none := by
          refine alookupStr_none_of_forall_lt ?_
          intro key hkey
          rw [List.map_cons] at hkey
          rcases List.mem_cons.mp hkey with rfl | hmem
          · exact h1
          · exact h1.trans (hk key hmem)
        by_cases h : name = n
        · subst h
          rw [if_pos rfl, hlookup]
          simp [alookupStr]
        · rw [if_neg h]
          simp only [alookupStr, if_neg h]
      · by_cases h2 : n = k
        · subst h2
          rw [if_neg h1]
          by_cases h : name = n
          · subst h
            rw [if_pos rfl]
            simp [alookupStr]
          · rw [if_neg h]
            simp [alookupStr, h]
        · have hkn : k < n := by
            rcases lt_trichotomy n k with h | h | h
            · exact absurd h h1
            · exact absurd h h2
            · exact h
          rw [if_neg h1, if_neg h2]
          by_cases h : name = k
          · subst h
            have hnek : name ≠ n := ne_of_lt hkn
            simp [alookupStr, hnek]
          · simp only [alookupStr, if_neg h]
            rw [ih ht]
            by_cases hn : name = n
            · subst hn
              have hnek : name ≠ k := h
              simp [alookupStr, hnek]
            · simp [hn]

/-- The class map's lookup is exactly the scan-order indices of each name. -/
theorem buildClassMap_lookup (classes : List ClasspathClass) (name : String) :
    alookupStr (buildClassMap classes) name = optList (dupIndices classes name) := by
  suffices h : ∀ (cs : List ClasspathClass) (acc : List (String × List Int))
      (spec : String → List Int),
      (acc.map Prod.fst).Pairwise (· < ·) →
      (∀ nm, alookupStr acc nm = optList (spec nm)) →
      ∀ nm, alookupStr (cs.foldl
          (fun acc c => classMapInsert acc c.name c.artifact_index) acc) nm =
        optList (spec nm ++ dupIndices cs nm) by
    simpa [optList] using
      h classes [] (fun _ => []) (by simp) (fun nm => by simp [alookupStr, optList])
        name
  intro cs
  induction cs with
  | nil =>
      intro acc spec hs hinv nm
      simpa [dupIndices] using hinv nm
  | cons c rest ih =>
      intro acc spec hs hinv nm
      rw [List.foldl_cons]
      have hstep := ih (classMapInsert acc c.name c.artifact_index)
        (fun nm => spec nm ++ (if c.name = nm then [c.artifact_index] else []))
        (classMapInsert_sorted hs) ?_ nm
      · rw [hstep]
        show optList ((spec nm ++ _) ++ _) = _
        congr 1
        rw [List.append_assoc]
        congr 1
        simp only [dupIndices, List.filter_cons]
        by_cases hc : c.name = nm
        · simp [hc]
        · simp [hc]
      · intro nm2
        rw [alookupStr_classMapInsert hs nm2, hinv nm2]
        show _ = optList (spec nm2 ++ if c.name = nm2 then [c.artifact_index] else [])
        by_cases h : nm2 = c.name
        · subst h
          rcases hsp : spec c.name with _ | ⟨a, t⟩ <;>
            simp [optList, hsp, hinv c.name]
        · have hcn : ¬ (c.name = nm2) := fun hh => h hh.symm
          simp [h, hcn]

theorem buildClassMap_sorted (classes : List ClasspathClass) :
    ((buildClassMap classes).map Prod.fst).Pairwise (· < ·) := by
  suffices h : ∀ (cs : List ClasspathClass) (acc : List (String × List Int)),
      (acc.map Prod.fst).Pairwise (· < ·) →
      ((cs.foldl (fun acc c => classMapInsert acc c.name c.artifact_index)
        acc).map Prod.fst).Pairwise (· < ·) by
    exact h classes [] (by simp)
  intro cs
  induction cs with
  | nil => exact fun acc h => h
  | cons c rest ih =>
      intro acc hacc
      exact ih (classMapInsert acc c.name c.artifact_index)
        (classMapInsert_sorted hacc)

theorem mem_assoc_of_lookup {β : Type} {l : List (String × β)} {k : String}
    {v : β} (h : alookupStr l k = some v) : (k, v) ∈ l := by
  induction l with
  | nil => simp [alookupStr] at h
  | cons kv t ih =>
      obtain ⟨k0, v0⟩ := kv
      by_cases hk : k = k0
      · subst hk
        simp only [alookupStr, if_pos rfl] at h
        simp [← Option.some.inj h]
      · simp only [alookupStr, if_neg hk] at h
        exact List.mem_cons.mpr (Or.inr (ih h))

theorem alookupStr_map_entries {β γ : Type} (F : String → β → γ)
    (l : List (String × β)) (name : String) :
    alookupStr (l.map (fun kv => (kv.1, F kv.1 kv.2))) name =
      (alookupStr l name).map (F name) := by
  induction l with
  | nil => rfl
  | cons kv t ih =>
      obtain ⟨k, v⟩ := kv
      by_cases hk : name = k
      · subst hk
        simp [alookupStr]
      · simp only [List.map_cons, alookupStr, if_neg hk]
        exact ih

theorem mem_insertByUri {artifacts : List (Option String)} {i x : Int}
    {l : List Int} :
    x ∈ insertByUri artifacts i l ↔ x = i ∨ x ∈ l := by
  induction l with
  | nil => simp [insertByUri]
  | cons j t ih =>
      unfold insertByUri
      by_cases h : artifact_uri artifacts i < artifact_uri artifacts j
      · simp [h]
      · simp [h, ih]
        tauto

theorem mem_sortByUri {artifacts : List (Option String)} {x : Int}
    {l : List Int} : x ∈ sortByUri artifacts l ↔ x ∈ l := by
  induction l with
  | nil => simp [sortByUri]
  | cons j t ih =>
      show x ∈ insertByUri artifacts j (sortByUri artifacts t) ↔ _
      rw [mem_insertByUri]
      simp [ih]

/-- The head of the URI-sorted index list is a member carrying the
lexicographically least URI. -/
theorem sortByUri_head_min (artifacts : List (Option String)) :
    ∀ {l : List Int}, l ≠ [] →
      (sortByUri artifacts l).headI ∈ l ∧
      ∀ j ∈ l, artifact_uri artifacts (sortByUri artifacts l).headI ≤
        artifact_uri artifacts j := by
  intro l
  induction l with
  | nil => intro h; exact absurd rfl h
  | cons x rest ih =>
      intro _
      by_cases hne : rest = []
      · subst hne
        refine ⟨by simp [sortByUri, insertByUri], ?_⟩
        intro j hj
        simp at hj
        subst hj
        simp [sortByUri, insertByUri]
      · obtain ⟨hmem, hmin⟩ := ih hne
        have hsne : sortByUri artifacts rest ≠ [] := by
          obtain ⟨y, hy⟩ := List.exists_mem_of_ne_nil rest hne
          exact List.ne_nil_of_mem (mem_sortByUri.mpr hy)
        rcases hs : sortByUri artifacts rest with _ | ⟨hr, tr⟩
        · exact absurd hs hsne
        · have hmem' : hr ∈ rest := by
            rw [hs] at hmem
            exact hmem
          have hmin' : ∀ j ∈ rest,
              artifact_uri artifacts hr ≤ artifact_uri artifacts j := by
            rw [hs] at hmin
            exact hmin
          have hgoal : sortByUri artifacts (x :: rest) =
              insertByUri artifacts x (hr :: tr) := by
            show insertByUri artifacts x (sortByUri artifacts rest) = _
            rw [hs]
          by_cases hcmp : artifact_uri artifacts x < artifact_uri artifacts hr
          · have hins : insertByUri artifacts x (hr :: tr) = x :: hr :: tr := by
              unfold insertByUri
              rw [if_pos hcmp]
            rw [hgoal, hins]
            refine ⟨List.mem_cons_self x rest, ?_⟩
            intro j hj
            rcases List.mem_cons.mp hj with rfl | hj
            · exact le_refl (artifact_uri artifacts j)
            · exact le_of_lt (lt_of_lt_of_le hcmp (hmin' j hj))
          · have hins : insertByUri artifacts x (hr :: tr) =
                hr :: insertByUri artifacts x tr := by
              cases tr with
              | nil => simp [insertByUri, hcmp]
              | cons a b => simp [insertByUri, hcmp]
            rw [hgoal, hins]
            refine ⟨List.mem_cons.mpr (Or.inr hmem'), ?_⟩
            intro j hj
            rcases List.mem_cons.mp hj with rfl | hj
            · exact le_of_not_lt hcmp
            · exact hmin' j hj

/-- Permissive resolution always succeeds, and every present class name maps
to a containing artifact whose URI is least. -/
theorem resolve_permissive_spec (classes : List ClasspathClass)
    (artifacts : List (Option String)) :
    ∃ index, resolve_classpath classes artifacts true = Except.ok index ∧
      ∀ name, dupIndices classes name ≠ [] →
        ∃ i, alookupStr index.classes name = some i ∧
          i ∈ dupIndices classes name ∧
          ∀ j ∈ dupIndices classes name,
            artifact_uri artifacts i ≤ artifact_uri artifacts j := by
  refine ⟨_, rfl, ?_⟩
  intro name hne
  have hmap : ((buildClassMap classes).map (fun kv =>
      if kv.2.length ≤ 1 then kv else (kv.1, sortByUri artifacts kv.2))).map
        (fun kv => (kv.1, kv.2.headI)) =
      (buildClassMap classes).map (fun kv => (kv.1,
        (if kv.2.length ≤ 1 then kv.2 else sortByUri artifacts kv.2).headI)) := by
    rw [List.map_map]
    refine List.map_congr_left (fun kv _ => ?_)
    by_cases h : kv.2.length ≤ 1 <;> simp [h]
  show ∃ i, alookupStr (((buildClassMap classes).map _).map _) name = some i ∧ _
  rw [hmap, alookupStr_map_entries
    (fun _ v => (if v.length ≤ 1 then v else sortByUri artifacts v).headI)]
  have hlk : alookupStr (buildClassMap classes) name =
      some (dupIndices classes name) := by
    rw [buildClassMap_lookup]
    simp [optList, hne]
  rw [hlk]
  by_cases hlen : (dupIndices classes name).length ≤ 1
  · rcases hx : dupIndices classes name with _ | ⟨x, rest⟩
    · exact absurd hx hne
    · rcases rest with _ | ⟨y, rest'⟩
      · refine ⟨x, by simp [hx], by simp [hx], ?_⟩
        intro j hj
        have hj' : j = x := by simpa [hx] using hj
        rw [hj']
      · rw [hx] at hlen
        simp at hlen
  · obtain ⟨hmem, hmin⟩ := sortByUri_head_min artifacts hne
    exact ⟨(sortByUri artifacts (dupIndices classes name)).headI,
      by simp [hlen], hmem, hmin⟩

/-- C9: with a duplicated class name present, strict mode fails with a
message listing every duplicated class name together with the indices and
URIs of the artifacts containing it, while permissive mode succeeds and maps
each duplicated name to a containing artifact whose URI is the
lexicographic minimum — so the chosen URI is independent of scan order. -/
theorem resolveClasspathDuplicatePolicy (classes : List ClasspathClass)
    (artifacts : List (Option String))
    (hdup : ∃ nm, 2 ≤ (dupIndices classes nm).length) :
    (∃ msg, resolve_classpath classes artifacts false = Except.error msg ∧
      ∀ name, 2 ≤ (dupIndices classes name).length →
        ∃ pre post, msg =
          pre ++ dupFragment artifacts name (dupIndices classes name) ++ post) ∧
    (∃ index, resolve_classpath classes artifacts true = Except.ok index ∧
      ∀ name, 2 ≤ (dupIndices classes name).length →
        ∃ i, alookupStr index.classes name = some i ∧
          i ∈ dupIndices classes name ∧
          ∀ j ∈ dupIndices classes name,
            artifact_uri artifacts i ≤ artifact_uri artifacts j) ∧
    (∀ classes' : List ClasspathClass, classes.Perm classes' →
      ∀ name, 2 ≤ (dupIndices classes name).length →
      ∃ index index' i i',
        resolve_classpath classes artifacts true = Except.ok index ∧
        resolve_classpath classes' artifacts true = Except.ok index' ∧
        alookupStr index.classes name = some i ∧
        alookupStr index'.classes name = some i' ∧
        artifact_uri artifacts i = artifact_uri artifacts i') := by
  have hfragmem : ∀ name, 2 ≤ (dupIndices classes name).length →
      dupFragment artifacts name (dupIndices classes name) ∈
        ((buildClassMap classes).filter (fun kv =>
          decide (1 < kv.2.length))).map (fun kv =>
            dupFragment artifacts kv.1 kv.2) := by
    intro name h2
    have hne : dupIndices classes name ≠ [] := by
      intro h
      rw [h] at h2
      simp at h2
    have hlk : alookupStr (buildClassMap classes) name =
        some (dupIndices classes name) := by
      rw [buildClassMap_lookup]
      simp [optList, hne]
    have hmem : (name, dupIndices classes name) ∈ buildClassMap classes :=
      mem_assoc_of_lookup hlk
    have hfil : (name, dupIndices classes name) ∈
        (buildClassMap classes).filter (fun kv => decide (1 < kv.2.length)) :=
      List.mem_filter.mpr ⟨hmem, by simp; omega⟩
    exact List.mem_map.mpr ⟨(name, dupIndices classes name), hfil, rfl⟩
  have hfragsne : ((buildClassMap classes).filter (fun kv =>
      decide (1 < kv.2.length))).map (fun kv =>
        dupFragment artifacts kv.1 kv.2) ≠ [] := by
    obtain ⟨nm, h2⟩ := hdup
    exact List.ne_nil_of_mem (hfragmem nm h2)
  refine ⟨?_, ?_, ?_⟩
  · refine ⟨"duplicate classes found: " ++ sjoin ", "
      (((buildClassMap classes).filter (fun kv =>
        decide (1 < kv.2.length))).map (fun kv =>
          dupFragment artifacts kv.1 kv.2)), ?_, ?_⟩
    · have hempfalse : (((buildClassMap classes).filter (fun kv =>
          decide (1 < kv.2.length))).map (fun kv =>
            dupFragment artifacts kv.1 kv.2)).isEmpty = false := by
        rcases hc : ((buildClassMap classes).filter (fun kv =>
            decide (1 < kv.2.length))).map (fun kv =>
              dupFragment artifacts kv.1 kv.2) with _ | ⟨a, t⟩
        · exact absurd hc hfragsne
        · rw [hc]
          rfl
      simp only [resolve_classpath]
      simp [hempfalse]
    · intro name h2
      obtain ⟨pre, post, hpp⟩ := sjoin_infix (hfragmem name h2)
      refine ⟨"duplicate classes found: " ++ pre, post, ?_⟩
      rw [hpp, ← String.append_assoc, ← String.append_assoc]
  · obtain ⟨index, hok, hspec⟩ := resolve_permissive_spec classes artifacts
    refine ⟨index, hok, ?_⟩
    intro name h2
    refine hspec name ?_
    intro h
    rw [h] at h2
    simp at h2
  · intro classes' hperm name h2
    have hpermdup : (dupIndices classes name).Perm (dupIndices classes' name) := by
      unfold dupIndices
      exact List.Perm.map _ (hperm.filter _)
    have hne : dupIndices classes name ≠ [] := by
      intro h
      rw [h] at h2
      simp at h2
    have hne' : dupIndices classes' name ≠ [] := by
      intro h
      rw [h] at hpermdup
      rw [List.perm_nil] at hpermdup
      exact hne hpermdup
    obtain ⟨index, hok, hspec⟩ := resolve_permissive_spec classes artifacts
    obtain ⟨index', hok', hspec'⟩ := resolve_permissive_spec classes' artifacts
    obtain ⟨i, hli, hmi, hmini⟩ := hspec name hne
    obtain ⟨i', hli', hmi', hmini'⟩ := hspec' name hne'
    refine ⟨index, index', i, i', hok, hok', hli, hli', ?_⟩
    refine le_antisymm ?_ ?_
    · exact hmini i' (hpermdup.mem_iff.mpr hmi')
    · exact hmini' i (hpermdup.mem_iff.mp hmi)

/-- C9 (witness): the policy on two artifacts `file:///zzz.jar` (index 0)
and `file:///aaa.jar` (index 1) both containing `com/example/Foo`, plus the
reversed scan order. -/
theorem resolveClasspathDuplicatePolicyWitness :
    (∃ msg pre post,
      resolve_classpath
        [⟨"com/example/Foo", 0⟩, ⟨"com/example/Foo", 1⟩]
        [some "file:///zzz.jar", some "file:///aaa.jar"] false =
        Except.error msg ∧
      msg = pre ++ dupFragment [some "file:///zzz.jar", some "file:///aaa.jar"]
        "com/example/Foo"
        (dupIndices [⟨"com/example/Foo", 0⟩, ⟨"com/example/Foo", 1⟩]
          "com/example/Foo") ++ post) ∧
    (∃ index i,
      resolve_classpath
        [⟨"com/example/Foo", 0⟩, ⟨"com/example/Foo", 1⟩]
        [some "file:///zzz.jar", some "file:///aaa.jar"] true =
        Except.ok index ∧
      alookupStr index.classes "com/example/Foo" = some i ∧
      i ∈ dupIndices [⟨"com/example/Foo", 0⟩, ⟨"com/example/Foo", 1⟩]
        "com/example/Foo" ∧
      artifact_uri [some "file:///zzz.jar", some "file:///aaa.jar"] i ≤
        artifact_uri [some "file:///zzz.jar", some "file:///aaa.jar"] 0) ∧
    (∃ index index' i i',
      resolve_classpath
        [⟨"com/example/Foo", 0⟩, ⟨"com/example/Foo", 1⟩]
        [some "file:///zzz.jar", some "file:///aaa.jar"] true =
        Except.ok index ∧
      resolve_classpath
        [⟨"com/example/Foo", 1⟩, ⟨"com/example/Foo", 0⟩]
        [some "file:///zzz.jar", some "file:///aaa.jar"] true =
        Except.ok index' ∧
      alookupStr index.classes "com/example/Foo" = some i ∧
      alookupStr index'.classes "com/example/Foo" = some i' ∧
      artifact_uri [some "file:///zzz.jar", some "file:///aaa.jar"] i =
        artifact_uri [some "file:///zzz.jar", some "file:///aaa.jar"] i') := by
  have h := resolveClasspathDuplicatePolicy
    [⟨"com/example/Foo", 0⟩, ⟨"com/example/Foo", 1⟩]
    [some "file:///zzz.jar", some "file:///aaa.jar"]
    ⟨"com/example/Foo", by decide⟩
  obtain ⟨⟨msg, herr, hlist⟩, ⟨index, hok, hspec⟩, hsched⟩ := h
  obtain ⟨pre, post, hpp⟩ := hlist "com/example/Foo" (by decide)
  obtain ⟨i, hli, hmi, hmin⟩ := hspec "com/example/Foo" (by decide)
  obtain ⟨index1, index', i1, i', hok1, hok', hli1, hli', heq⟩ :=
    hsched [⟨"com/example/Foo", 1⟩, ⟨"com/example/Foo", 0⟩]
      (List.Perm.swap _ _ _) "com/example/Foo" (by decide)
  exact ⟨⟨msg, pre, post, herr, hpp⟩,
    ⟨index, i, hok, hli, hmi, hmin 0 (by decide)⟩,
    ⟨index1, index', i1, i', hok1, hok', hli1, hli', heq⟩⟩

/-! ## Artifact URIs for findings (src/engine.rs) -/

/-- The slice of `ir::Class` consumed by `class_artifact_uri`. -/
structure IrClass where
  name : String
  artifact_index : Int
  deriving Repr, DecidableEq

/-- `str::ends_with`, over the string's character list. -/
def strEndsWith (s pat : String) : Bool := pat.data.isSuffixOf s.data

/-- `str::starts_with`, over the string's character list. -/
def strStartsWith (s pat : String) : Bool := pat.data.isPrefixOf s.data

/-- `AnalysisContext::class_artifact_uri` (engine.rs).  The context's
`artifact_uris : BTreeMap<i64, String>` is modelled by its lookup
function. -/
def class_artifact_uri (artifact_uris : Int → Option String) (c : IrClass) :
    Option String :=
  match artifact_uris c.artifact_index with
  | none => none
  | some uri =>
      if strEndsWith uri ".class" then some uri
      else if strEndsWith uri ".jar" then
        if strStartsWith uri "jar:" then
          some (uri ++ "!/" ++ c.name ++ ".class")
        else
          some ("jar:" ++ uri ++ "!/" ++ c.name ++ ".class")
      else none

/-- C10 (counterexample): a URI that ends in `.jar` but already starts with
`jar:` is not wrapped as `jar:<uri>!/<class-name>.class`; the code appends
`!/<class-name>.class` without re-prefixing. -/
theorem jarPrefixedUriNotRewrapped :
    class_artifact_uri (fun _ => some "jar:file:///lib.jar")
        ⟨"com/example/Foo", 0⟩ =
      some "jar:file:///lib.jar!/com/example/Foo.class" ∧
    class_artifact_uri (fun _ => some "jar:file:///lib.jar")
        ⟨"com/example/Foo", 0⟩ ≠
      some ("jar:" ++ "jar:file:///lib.jar" ++ "!/" ++ "com/example/Foo"
        ++ ".class") := by
  constructor
  · rfl
  · decide

/-- C10 (amended): no recorded URI, or a URI ending neither in `.class` nor
`.jar`, yields no artifact URI; a `.class` URI is returned verbatim; a
`.jar` URI not already starting with `jar:` is wrapped as
`jar:<uri>!/<class-name>.class`, while one already starting with `jar:`
merely gets `!/<class-name>.class` appended. -/
theorem classArtifactUriCases (artifact_uris : Int → Option String)
    (c : IrClass) :
    (artifact_uris c.artifact_index = none →
      class_artifact_uri artifact_uris c = none) ∧
    (∀ uri, artifact_uris c.artifact_index = some uri →
      (strEndsWith uri ".class" = true →
        class_artifact_uri artifact_uris c = some uri) ∧
      (strEndsWith uri ".class" = false → strEndsWith uri ".jar" = true →
        (strStartsWith uri "jar:" = true →
          class_artifact_uri artifact_uris c =
            some (uri ++ "!/" ++ c.name ++ ".class")) ∧
        (strStartsWith uri "jar:" = false →
          class_artifact_uri artifact_uris c =
            some ("jar:" ++ uri ++ "!/" ++ c.name ++ ".class"))) ∧
      (strEndsWith uri ".class" = false → strEndsWith uri ".jar" = false →
        class_artifact_uri artifact_uris c = none)) := by
  constructor
  · intro h
    simp [class_artifact_uri, h]
  · intro uri h
    refine ⟨?_, ?_, ?_⟩
    · intro hclass
      simp [class_artifact_uri, h, hclass]
    · intro hclass hjar
      constructor
      · intro hpre
        simp [class_artifact_uri, h, hclass, hjar, hpre]
      · intro hpre
        simp [class_artifact_uri, h, hclass, hjar, hpre]
    · intro hclass hjar
      simp [class_artifact_uri, h, hclass, hjar]

/-- C10 (witness): the case analysis evaluated at a missing URI, a `.class`
URI, a bare `.jar` URI, a `jar:`-prefixed `.jar` URI and a `.txt` URI. -/
theorem classArtifactUriCasesWitness :
    class_artifact_uri (fun _ => none) ⟨"A", 0⟩ = none ∧
    class_artifact_uri (fun _ => some "file:///A.class") ⟨"A", 0⟩ =
      some "file:///A.class" ∧
    class_artifact_uri (fun _ => some "file:///lib.jar") ⟨"A", 0⟩ =
      some ("jar:" ++ "file:///lib.jar" ++ "!/" ++ "A" ++ ".class") ∧
    class_artifact_uri (fun _ => some "jar:file:///lib.jar") ⟨"A", 0⟩ =
      some ("jar:file:///lib.jar" ++ "!/" ++ "A" ++ ".class") ∧
    class_artifact_uri (fun _ => some "file:///notes.txt") ⟨"A", 0⟩ = none := by
  refine ⟨(classArtifactUriCases (fun _ => none) ⟨"A", 0⟩).1 rfl,
    ((classArtifactUriCases (fun _ => some "file:///A.class") ⟨"A", 0⟩).2
      "file:///A.class" rfl).1 (by decide),
    (((classArtifactUriCases (fun _ => some "file:///lib.jar") ⟨"A", 0⟩).2
      "file:///lib.jar" rfl).2.1 (by decide) (by decide)).2 (by decide),
    (((classArtifactUriCases (fun _ => some "jar:file:///lib.jar") ⟨"A", 0⟩).2
      "jar:file:///lib.jar" rfl).2.1 (by decide) (by decide)).1 (by decide),
    ((classArtifactUriCases (fun _ => some "file:///notes.txt") ⟨"A", 0⟩).2
      "file:///notes.txt" rfl).2.2 (by decide) (by decide)⟩

/-! ## Rule engine (src/engine.rs `Engine::analyze`) -/

instance {e a : Type} [DecidableEq e] [DecidableEq a] : DecidableEq (Except e a) :=
  fun x y =>
    match x, y with
    | Except.error u, Except.error v =>
        if h : u = v then Decidable.isTrue (by rw [h])
        else Decidable.isFalse (fun hh => h (Except.error.inj hh))
    | Except.ok u, Except.ok v =>
        if h : u = v then Decidable.isTrue (by rw [h])
        else Decidable.isFalse (fun hh => h (Except.ok.inj hh))
    | Except.error _, Except.ok _ =>
        Decidable.isFalse (fun hh => Except.noConfusion hh)
    | Except.ok _, Except.error _ =>
        Decidable.isFalse (fun hh => Except.noConfusion hh)

/-- One registered rule as the engine sees it: its stable id (the engine's
rule list is sorted by id at construction) and the outcome of
`rule.run(&context)` on the run's context. -/
structure RuleSpec where
  id : String
  outcome : Except String (List SarifResult)
  deriving Repr, DecidableEq

/-- The engine stamps its id onto every result that does not carry one. -/
def stampResults (id : String) (rs : List SarifResult) : List SarifResult :=
  rs.map (fun r =>
    if r.rule_id = none then { r with rule_id := some id } else r)

/-- The failing rules, in rule-list (= rule-id) order, with their errors. -/
def failingRules (rules : List RuleSpec) : List (String × String) :=
  rules.filterMap (fun r =>
    match r.outcome with
    | Except.error e => some (r.id, e)
    | Except.ok _ => none)

/-- The successful per-rule outputs `(id, stamped results)`. -/
def okOutputs (rules : List RuleSpec) : List (String × List SarifResult) :=
  rules.filterMap (fun r =>
    match r.outcome with
    | Except.ok rs => some (r.id, stampResults r.id rs)
    | Except.error _ => none)

/-- Rule-output ordering (`rule_outputs.sort_by(id)`). -/
def cmpRuleOutput (a b : String × List SarifResult) : Ordering :=
  compare a.1 b.1

/-- The engine's final result ordering: `(rule_id, message_text)`. -/
def cmpResult (a b : SarifResult) : Ordering :=
  (compare (a.rule_id.getD "") (b.rule_id.getD "")).then
    (compare (a.message.text.getD "") (b.message.text.getD ""))

/-- Aggregated SARIF payload from rule execution (`EngineOutput`); rule
descriptors are represented by their ids. -/
structure EngineOutput where
  rules : List String
  results : List SarifResult
  deriving Repr, DecidableEq

/-- `Engine::analyze` (engine.rs).  The rules run on a rayon worker pool and
are collected with `collect::<Result<Vec<_>>>()`; rayon's `Result` collection
saves whichever worker's error is recorded first in time (a `Mutex`
`try_lock` race), so when several rules fail, which error surfaces depends
on scheduling.  The `sched` parameter models that choice: the surfaced
error is that of the `sched % n`-th failing rule.  On success the outputs
are sorted by rule id, concatenated, and stable-sorted by
`(rule_id, message_text)`. -/
def Engine.analyze (rules : List RuleSpec) (sched : Nat) :
    Except String EngineOutput :=
  match failingRules rules with
  | [] =>
      let sorted := sortBy cmpRuleOutput (okOutputs rules)
      Except.ok
        { rules := sorted.map Prod.fst,
          results := sortBy cmpResult (sorted.map Prod.snd).join }
  | f :: rest =>
      Except.error ((f :: rest).get
        ⟨sched % (rest.length + 1), Nat.mod_lt _ (Nat.succ_pos _)⟩).2

/-- C2 (counterexample): with two failing rules `RULE_A < RULE_B`, one
schedule surfaces `RULE_B`'s error — not the error of the smallest rule id —
and two schedules give different results, so the choice is not
scheduling-independent. -/
theorem engineErrorRace :
    Engine.analyze
      [⟨"RULE_A", Except.error "boom A"⟩, ⟨"RULE_B", Except.error "boom B"⟩]
      1 = Except.error "boom B" ∧
    (Except.error "boom B" : Except String EngineOutput) ≠
      Except.error "boom A" ∧
    Engine.analyze
      [⟨"RULE_A", Except.error "boom A"⟩, ⟨"RULE_B", Except.error "boom B"⟩]
      1 ≠
    Engine.analyze
      [⟨"RULE_A", Except.error "boom A"⟩, ⟨"RULE_B", Except.error "boom B"⟩]
      0 := by
  refine ⟨rfl, by decide, by decide⟩

/-- C2 (amended): when at least one rule fails, the engine surfaces the
error of one of the failing rules — which one depends on the worker-pool
schedule — and the failing set is exactly the rules whose `run` returned an
error; when exactly one rule fails, the surfaced error is deterministically
that rule's error, for every schedule. -/
theorem engineErrorSelection (rules : List RuleSpec) (sched : Nat)
    (hfail : failingRules rules ≠ []) :
    (∃ rid err, (rid, err) ∈ failingRules rules ∧
      Engine.analyze rules sched = Except.error err) ∧
    (∀ rid err, (rid, err) ∈ failingRules rules ↔
      ∃ r ∈ rules, r.id = rid ∧ r.outcome = Except.error err) ∧
    (∀ rid err, failingRules rules = [(rid, err)] →
      Engine.analyze rules sched = Except.error err) := by
  refine ⟨?_, ?_, ?_⟩
  · rcases hf : failingRules rules with _ | ⟨f, rest⟩
    · exact absurd hf hfail
    · refine ⟨((f :: rest).get
        ⟨sched % (rest.length + 1), Nat.mod_lt _ (Nat.succ_pos _)⟩).1,
        ((f :: rest).get
          ⟨sched % (rest.length + 1), Nat.mod_lt _ (Nat.succ_pos _)⟩).2,
        ?_, ?_⟩
      · apply List.get_mem
      · unfold Engine.analyze
        rw [hf]
  · intro rid err
    unfold failingRules
    rw [List.mem_filterMap]
    constructor
    · rintro ⟨r, hr, hout⟩
      rcases ho : r.outcome with e | rs
      · rw [ho] at hout
        simp at hout
        obtain ⟨h1, h2⟩ := hout
        exact ⟨r, hr, h1, by rw [ho, h2]⟩
      · rw [ho] at hout
        simp at hout
    · rintro ⟨r, hr, hid, hout⟩
      exact ⟨r, hr, by rw [hout, ← hid]⟩
  · intro rid err hsingle
    unfold Engine.analyze
    rw [hsingle]
    simp

/-- C2 (witness): the amended selection evaluated on one engine run with two
failing rules and one with a single failing rule. -/
theorem engineErrorSelectionWitness :
    (∃ rid err, (rid, err) ∈ failingRules
        [⟨"RULE_A", Except.error "boom A"⟩,
         ⟨"RULE_B", Except.error "boom B"⟩] ∧
      Engine.analyze
        [⟨"RULE_A", Except.error "boom A"⟩,
         ⟨"RULE_B", Except.error "boom B"⟩] 1 = Except.error err) ∧
    Engine.analyze [⟨"RULE_A", Except.error "only boom"⟩] 7 =
      Except.error "only boom" := by
  have h1 := engineErrorSelection
    [⟨"RULE_A", Except.error "boom A"⟩, ⟨"RULE_B", Except.error "boom B"⟩]
    1 (by decide)
  have h2 := engineErrorSelection [⟨"RULE_A", Except.error "only boom"⟩]
    7 (by decide)
  exact ⟨h1.1, h2.2.2 "RULE_A" "only boom" (by decide)⟩

/-! ## SARIF assembly and the scan pipeline (src/main.rs) -/

/-- `InvocationStats` (main.rs): wall-clock phase durations measured with
`Instant::now()` around each pipeline phase, plus entity counts. -/
structure InvocationStats where
  scan_duration_ms : Nat
  classpath_duration_ms : Nat
  analysis_call_graph_duration_ms : Nat
  analysis_artifact_duration_ms : Nat
  analysis_call_graph_hierarchy_duration_ms : Nat
  analysis_call_graph_index_duration_ms : Nat
  analysis_call_graph_edges_duration_ms : Nat
  analysis_rules_duration_ms : Nat
  class_count : Nat
  artifact_count : Nat
  classpath_class_count : Nat
  deriving Repr, DecidableEq

/-- The SARIF `Invocation` fields `build_invocation` populates; the property
bag is its `BTreeMap`, iterated in ascending key order. -/
structure Invocation where
  execution_successful : Bool
  arguments : List String
  command_line : String
  properties : List (String × Nat)
  deriving Repr, DecidableEq

/-- `build_invocation` (main.rs): the process arguments, the joined command
line, and the eleven timing/count properties in `BTreeMap` key order. -/
def build_invocation (args : List String) (stats : InvocationStats) :
    Invocation :=
  { execution_successful := true,
    arguments := args,
    command_line := sjoin " " args,
    properties := [
      ("inspequte.analysis_artifact_ms", stats.analysis_artifact_duration_ms),
      ("inspequte.analysis_callgraph_edges_ms",
        stats.analysis_call_graph_edges_duration_ms),
      ("inspequte.analysis_callgraph_hierarchy_ms",
        stats.analysis_call_graph_hierarchy_duration_ms),
      ("inspequte.analysis_callgraph_index_ms",
        stats.analysis_call_graph_index_duration_ms),
      ("inspequte.analysis_callgraph_ms",
        stats.analysis_call_graph_duration_ms),
      ("inspequte.analysis_rules_ms", stats.analysis_rules_duration_ms),
      ("inspequte.artifact_count", stats.artifact_count),
      ("inspequte.class_count", stats.class_count),
      ("inspequte.classpath_class_count", stats.classpath_class_count),
      ("inspequte.classpath_ms", stats.classpath_duration_ms),
      ("inspequte.scan_ms", stats.scan_duration_ms)] }

/-- The serde_sarif `SCHEMA_URL` constant (its exact text is immaterial). -/
def SCHEMA_URL : String := "https://json.schemastore.org/sarif-2.1.0.json"

/-- The SARIF document fields `build_sarif` populates (one run); value-level
equality of this structure corresponds to byte-level equality of the
serialized JSON, since `serde_json` serialization is injective on it. -/
structure Sarif where
  schema : String
  version : String
  tool_driver_name : String
  tool_rules : Option (List String)
  invocation : Invocation
  results : List SarifResult
  artifacts : Option (List (Option String))
  automation_details : Option String
  deriving Repr, DecidableEq

/-- `build_sarif` (main.rs): empty rule and artifact lists are omitted
rather than serialized as empty arrays; a blank automation-details id is
dropped, a nonblank one is trimmed. -/
def build_sarif (artifacts : List (Option String)) (invocation : Invocation)
    (rules : List String) (results : List SarifResult)
    (automation_details_id : Option String) : Sarif :=
  { schema := SCHEMA_URL,
    version := "2.1.0",
    tool_driver_name := "inspequte",
    tool_rules := if rules.isEmpty then none else some rules,
    invocation := invocation,
    results := results,
    artifacts := if artifacts.isEmpty then none else some artifacts,
    automation_details := automation_details_id.bind (fun v =>
      if v.trim = "" then none else some v.trim) }

/-- `run_scan`/`analyze` (main.rs), composed from the embedded pieces: run
the engine (under a worker-pool schedule), load and apply the baseline, and
assemble the SARIF document with the invocation built from the process
arguments and the measured phase timings. -/
def run_scan_model (rules : List RuleSpec) (sched : Nat)
    (artifacts : List (Option String)) (args : List String)
    (read : FsReadResult) (parse : String → Option Baseline)
    (automation_details_id : Option String) (stats : InvocationStats) :
    Except String Sarif :=
  match Engine.analyze rules sched with
  | Except.error e => Except.error e
  | Except.ok analysis =>
      match load_baseline read parse with
      | Except.error e => Except.error e
      | Except.ok baseline =>
          Except.ok (build_sarif artifacts (build_invocation args stats)
            analysis.rules
            (match baseline with
              | some b => b.filter analysis.results
              | none => analysis.results)
            automation_details_id)

/-- C1 (counterexample): two runs over identical inputs — same rules, same
artifacts, same arguments, same (absent) baseline — that observe different
wall-clock scan durations emit different SARIF documents: the invocation
property bag embeds `inspequte.scan_ms`. -/
theorem sarifTimingCounterexample :
    run_scan_model [] 0 [] ["inspequte"] FsReadResult.notFound (fun _ => none)
        none ⟨0, 0, 0, 0, 0, 0, 0, 0, 0, 0, 0⟩ ≠
      run_scan_model [] 0 [] ["inspequte"] FsReadResult.notFound
        (fun _ => none) none ⟨1, 0, 0, 0, 0, 0, 0, 0, 0, 0, 0⟩ := by
  decide

theorem build_invocation_inj {args args' : List String}
    {s s' : InvocationStats}
    (h : build_invocation args s = build_invocation args' s') :
    args = args' ∧ s = s' := by
  cases s
  cases s'
  simp only [build_invocation, Invocation.mk.injEq, List.cons.injEq,
    Prod.mk.injEq, true_and, and_true] at h
  refine ⟨h.1, ?_⟩
  simp_all

/-- C1 (amended): the emitted SARIF is a deterministic function of the
inputs together with the observed phase timings; for fixed inputs, two
successful runs emit identical documents exactly when their timing stats
coincide — the wall-clock counters in the invocation property bag are the
only violation of byte-identical determinism. -/
theorem sarifDeterminismModuloTimings (rules : List RuleSpec) (sched : Nat)
    (artifacts : List (Option String)) (args : List String)
    (read : FsReadResult) (parse : String → Option Baseline)
    (automation_details_id : Option String) (stats stats' : InvocationStats)
    (doc doc' : Sarif)
    (h : run_scan_model rules sched artifacts args read parse
      automation_details_id stats = Except.ok doc)
    (h' : run_scan_model rules sched artifacts args read parse
      automation_details_id stats' = Except.ok doc') :
    doc = doc' ↔ stats = stats' := by
  rcases ha : Engine.analyze rules sched with e | analysis
  · unfold run_scan_model at h
    rw [ha] at h
    cases h
  rcases hb : load_baseline read parse with e | bl
  · unfold run_scan_model at h
    rw [ha, hb] at h
    cases h
  unfold run_scan_model at h h'
  rw [ha, hb] at h h'
  simp only [Except.ok.injEq] at h h'
  constructor
  · intro hdoc
    rw [← h, ← h'] at hdoc
    have hinv : build_invocation args stats = build_invocation args stats' := by
      have := congrArg Sarif.invocation hdoc
      simpa [build_sarif] using this
    exact (build_invocation_inj hinv).2
  · intro hstats
    rw [← h, ← h', hstats]

/-- C1 (witness): the determinism-modulo-timings law on a concrete pipeline
run with one succeeding rule, comparing a 3 ms scan against a 4 ms scan. -/
theorem sarifDeterminismModuloTimingsWitness :
    build_sarif [some "file:///A.class"]
        (build_invocation ["inspequte"] ⟨3, 0, 0, 0, 0, 0, 0, 0, 1, 1, 1⟩)
        ["RULE_A"] [] none =
      build_sarif [some "file:///A.class"]
        (build_invocation ["inspequte"] ⟨4, 0, 0, 0, 0, 0, 0, 0, 1, 1, 1⟩)
        ["RULE_A"] [] none ↔
    (⟨3, 0, 0, 0, 0, 0, 0, 0, 1, 1, 1⟩ : InvocationStats) =
      ⟨4, 0, 0, 0, 0, 0, 0, 0, 1, 1, 1⟩ :=
  sarifDeterminismModuloTimings
    [⟨"RULE_A", Except.ok []⟩] 0 [some "file:///A.class"] ["inspequte"]
    FsReadResult.notFound (fun _ => none) none
    ⟨3, 0, 0, 0, 0, 0, 0, 0, 1, 1, 1⟩ ⟨4, 0, 0, 0, 0, 0, 0, 0, 1, 1, 1⟩
    _ _ rfl rfl

end Inspequte
